import Mathlib

/-!
Shallow embedding of `src/JsonManager.ts` (class `JsonManager extends BaseManager`),
the JSON-file-backed RBAC manager.  JavaScript `Map`s (which preserve insertion
order and have unique keys) are modelled as association lists with the exact
`get` / `has` / `set` / `delete` semantics of `Map`; the three persisted JSON
documents are carried inside the state so that the `save*` methods (which
rewrite one document in full) are pure state updates.  Methods of the base
class `BaseManager` (package `@iushev/rbac`, outside this repository) that the
claims depend on are modelled from the spec and marked as such.
-/

namespace RbacJM

/-- Item kind: `ItemType.role` or `ItemType.permission` from `@iushev/rbac`. -/
inductive ItemType where
  | role
  | permission
deriving DecidableEq, Repr

/-- An authorization item (`Role` / `Permission` from `@iushev/rbac`): the
`instanceof Permission` / `instanceof Role` tests of the source correspond to
the `type` field of this tagged record. -/
structure Item where
  name : String
  type : ItemType
  description : Option String := none
  ruleName : Option String := none
deriving DecidableEq, Repr

/-- An assignment record (`new Assignment({username, itemName})`). -/
structure Assignment where
  username : String
  itemName : String
deriving DecidableEq, Repr

/-- A rule: `name`, the constructor tag (`rule.constructor.name`, used as
`typeName` when saving and looked up in `ruleClasses` when loading), and the
serialized payload (`JSON.stringify(rule)`), kept opaque.  The evaluation body
of a rule is external caller logic and is not modelled. -/
structure Rule where
  name : String
  typeName : String
  payload : String
deriving DecidableEq, Repr

/-- Shape of one entry of the persisted items document (`saveItems`). -/
structure SavedItem where
  type : ItemType
  name : String
  description : Option String
  ruleName : Option String
  children : List String
deriving DecidableEq, Repr

/-- Shape of one entry of the persisted rules document (`saveRules`):
`{name, data: {typeName, rule}}`. -/
structure SavedRule where
  name : String
  typeName : String
  payload : String
deriving DecidableEq, Repr

/-- The error kinds thrown synchronously by the manager (each `throw new
Error(...)` site of the source is mapped to the corresponding kind). -/
inductive RbacError where
  | unknownItem
  | selfReference
  | typeViolation
  | cycleDetected
  | duplicateEdge
  | duplicateItemName
  | roleNotFound
deriving DecidableEq, Repr

deriving instance DecidableEq for Except

/-! JavaScript `Map` primitives over association lists.  `mset` updates the
value in place when the key exists (keeping its position) and appends the new
entry otherwise, exactly like `Map.prototype.set`. -/

/-- `Map.prototype.get`: first entry with the key. -/
def mget {α : Type} (m : List (String × α)) (k : String) : Option α :=
  match m with
  | [] => none
  | (k', v) :: rest => if k' = k then some v else mget rest k

/-- `Map.prototype.has`. -/
def mhas {α : Type} (m : List (String × α)) (k : String) : Bool :=
  match m with
  | [] => false
  | (k', _) :: rest => if k' = k then true else mhas rest k

/-- `Map.prototype.set`. -/
def mset {α : Type} (m : List (String × α)) (k : String) (v : α) : List (String × α) :=
  match m with
  | [] => [(k, v)]
  | (k', v') :: rest => if k' = k then (k, v) :: rest else (k', v') :: mset rest k v

/-- `Map.prototype.delete` (result map only; the source only uses the Boolean
result of `delete` via `removeChildren`, which is not needed by the claims). -/
def mdel {α : Type} (m : List (String × α)) (k : String) : List (String × α) :=
  match m with
  | [] => []
  | (k', v') :: rest => if k' = k then mdel rest k else (k', v') :: mdel rest k

/-- Key list of a map, in iteration order. -/
def mkeys {α : Type} (m : List (String × α)) : List String :=
  m.map Prod.fst

/-- `childName => (parentName => Item)`: the `parents` table of `BaseManager`. -/
abbrev ParentsMap := List (String × List (String × Item))

/-- `username => (itemName => Assignment)`: the `assignments` table. -/
abbrev AssignMap := List (String × List (String × Assignment))

/-- `name => Item`: the `items` table. -/
abbrev ItemsMap := List (String × Item)

/-- The full manager state: the four in-memory tables, the caller-supplied
rule-class registry (`ruleClasses`, modelled by the set of registered
constructor tags), and the contents of the three persisted JSON documents. -/
structure ManagerState where
  items : ItemsMap
  parents : ParentsMap
  assignments : AssignMap
  rules : List (String × Rule)
  ruleClasses : List String
  docItems : List (String × SavedItem)
  docAssignments : List (String × List String)
  docRules : List (String × SavedRule)
deriving DecidableEq, Repr

/-! Pure queries of `JsonManager`. -/

/-- `getChildren(parentName)`: iterates the whole `parents` table and collects
every child whose parent set lists `parentName`.  The value stored is
`this.items.get(childName)` — which is `undefined` (here `none`) when the child
name no longer resolves in the item table. -/
def getChildren (st : ManagerState) (parentName : String) : List (String × Option Item) :=
  st.parents.foldl
    (fun acc e => if mhas e.2 parentName then mset acc e.1 (mget st.items e.1) else acc) []

/-- One scan of the whole `parents` table, the loop body of
`getChildrenRecursive(name, result)`: children of `name` not yet in `result`
are appended and explored through the continuation `rec` (the recursive call
of the source). -/
def dfsScan (rec : String → List String → Option (List String)) (name : String) :
    ParentsMap → List String → Option (List String)
  | [], res => some res
  | (c, ps) :: rest, res =>
    if c ∈ res ∨ mhas ps name = false then dfsScan rec name rest res
    else
      match rec c (res ++ [c]) with
      | none => none
      | some res2 => dfsScan rec name rest res2

/-- `getChildrenRecursive(name, result)` with a recursion-depth budget:
each nesting level scans the whole table.  The budget is bookkeeping only —
`dfsAux_total` shows the canonical budget can never run out. -/
def dfsAux (P : ParentsMap) : Nat → String → List String → Option (List String)
  | 0, _, _ => none
  | fuel + 1, name, res => dfsScan (dfsAux P fuel) name P res

/-- `getChildrenRecursive(name, result)` at the canonical budget; by
`dfsAux_total` the default branch is never taken. -/
def getChildrenRecursive (P : ParentsMap) (name : String) (res : List String) :
    List String :=
  (dfsAux P (P.length + 1) name res).getD res

/-- The grandparent loop of `detectLoop`: try each recorded parent in turn
through the continuation `rec`, returning at the first `true`. -/
def loopScan (rec : Item → Option Bool) : List Item → Option Bool
  | [] => some false
  | g :: rest =>
    match rec g with
    | none => none
    | some true => some true
    | some false => loopScan rec rest

/-- `detectLoop(parent, child)`: true when `parent.name === child.name`;
false when `parent` has no recorded parents or `child` is not in the item
table; otherwise recurse into every recorded parent.  The source recursion
has no visited set, so it terminates only on acyclic ancestor chains; `fuel`
bounds the recursion depth and `detectLoopF_total` discharges it under the
acyclicity invariant. -/
def detectLoopF (P : ParentsMap) (IT : ItemsMap) : Nat → Item → Item → Option Bool
  | 0, _, _ => none
  | fuel + 1, parent, child =>
    if parent.name = child.name then some true
    else if mhas P parent.name = false ∨ mhas IT child.name = false then some false
    else
      loopScan (fun g => detectLoopF P IT fuel g child)
        (((mget P parent.name).getD []).map Prod.snd)

/-! Persistence (`saveItems` / `saveAssignments` / `saveRules` / `save`):
each method serializes one in-memory table in full and rewrites the
corresponding document. -/

/-- Document written by `saveItems`: one entry per item, with its `children`
derived from `getChildren`. -/
def serializeItems (st : ManagerState) : List (String × SavedItem) :=
  st.items.foldl
    (fun acc e =>
      mset acc e.1
        ⟨e.2.type, e.2.name, e.2.description, e.2.ruleName, mkeys (getChildren st e.1)⟩)
    []

/-- Document written by `saveAssignments`: username to list of `itemName`s. -/
def serializeAssignments (st : ManagerState) : List (String × List String) :=
  st.assignments.foldl (fun acc e => mset acc e.1 (e.2.map (fun ae => ae.2.itemName))) []

/-- Document written by `saveRules`: `typeName` is `rule.constructor.name` and
the payload is the serialized rule body. -/
def serializeRules (st : ManagerState) : List (String × SavedRule) :=
  st.rules.foldl (fun acc e => mset acc e.1 ⟨e.2.name, e.2.typeName, e.2.payload⟩) []

/-- `saveItems()`: rewrite the items document from the current tables. -/
def saveItems (st : ManagerState) : ManagerState :=
  { st with docItems := serializeItems st }

/-- `saveAssignments()`. -/
def saveAssignments (st : ManagerState) : ManagerState :=
  { st with docAssignments := serializeAssignments st }

/-- `saveRules()`. -/
def saveRules (st : ManagerState) : ManagerState :=
  { st with docRules := serializeRules st }

/-- `save()`: rewrites the three documents, one per table. -/
def save (st : ManagerState) : ManagerState :=
  saveRules (saveAssignments (saveItems st))

/-! Mutations.  Each `throw` of the source is an `Except.error` paired with
the state as it stands at the throw site; every throw of `addChild` happens
before the tables are touched, so the paired state is the input state. -/

/-- `addChild(parent, child)`.  Checks run in source order: existence, self
reference, type direction, loop detection, duplicate edge; on success the
edge is recorded (`parents.get(child.name).set(parent.name, items.get(parent.name))`,
creating the bucket if needed) and the items document is rewritten. -/
def addChild (st : ManagerState) (fuel : Nat) (parent child : Item) :
    Option (ManagerState × Except RbacError Bool) :=
  if ¬ (mhas st.items parent.name = true ∧ mhas st.items child.name = true) then
    some (st, .error .unknownItem)
  else if parent.name = child.name then some (st, .error .selfReference)
  else if parent.type = .permission ∧ child.type = .role then
    some (st, .error .typeViolation)
  else
    match detectLoopF st.parents st.items fuel parent child with
    | none => none
    | some true => some (st, .error .cycleDetected)
    | some false =>
      if mhas ((mget st.parents child.name).getD []) parent.name then
        some (st, .error .duplicateEdge)
      else
        let pit := (mget st.items parent.name).getD parent
        let parents2 :=
          if mhas st.parents child.name then
            mset st.parents child.name
              (mset ((mget st.parents child.name).getD []) parent.name pit)
          else st.parents ++ [(child.name, [(parent.name, pit)])]
        some (saveItems { st with parents := parents2 }, .ok true)

/-- `addChild` at the canonical fuel `parents.length + 1`. -/
def addChildTop (st : ManagerState) (parent child : Item) :
    Option (ManagerState × Except RbacError Bool) :=
  addChild st (st.parents.length + 1) parent child

/-- `removeChild(parent, child)`: false when the edge is absent, otherwise
deletes it from the child's bucket and rewrites the items document. -/
def removeChild (st : ManagerState) (parent child : Item) : ManagerState × Bool :=
  if mhas ((mget st.parents child.name).getD []) parent.name then
    let parents2 :=
      mset st.parents child.name (mdel ((mget st.parents child.name).getD []) parent.name)
    (saveItems { st with parents := parents2 }, true)
  else (st, false)

/-- `removeItem(item)`: false when absent; otherwise deletes `item.name` from
every parent bucket (item as parent reference) and every assignment bucket,
deletes the item, and rewrites the items and assignments documents.  Note the
entry of `parents` keyed by `item.name` itself (the removed item's own parent
set) is not touched. -/
def removeItem (st : ManagerState) (item : Item) : ManagerState × Bool :=
  if mhas st.items item.name then
    let st1 : ManagerState :=
      { st with
          items := mdel st.items item.name
          parents := st.parents.map (fun e => (e.1, mdel e.2 item.name))
          assignments := st.assignments.map (fun e => (e.1, mdel e.2 item.name)) }
    (saveAssignments (saveItems st1), true)
  else (st, false)

/-- The re-keying step of `updateItem`, shared by the hierarchy and the
assignment tables: when `oldk` is bound, store its (possibly adjusted) value
under `newk` and delete the old key (`m.set(newk, m.get(oldk)); m.delete(oldk)`
of the source); otherwise leave the map alone. -/
def rekeyBucket {α : Type} (b : List (String × α)) (oldk newk : String)
    (f : α → α) : List (String × α) :=
  match mget b oldk with
  | some v => mdel (mset b newk (f v)) oldk
  | none => b

/-- `updateItem(name, item)`: when renaming, fails on a name collision, else
deletes the old item, re-keys the child entry of `parents`, re-keys the
parent reference in every bucket, re-keys every assignment (mutating its
`itemName`), and rewrites the assignments document; then (rename or not)
stores the item under `item.name` and rewrites the items document. -/
def updateItem (st : ManagerState) (name : String) (item : Item) :
    ManagerState × Except RbacError Bool :=
  if name ≠ item.name then
    if mhas st.items item.name then (st, .error .duplicateItemName)
    else
      let items1 := mdel st.items name
      let parents1 := rekeyBucket st.parents name item.name id
      let parents2 := parents1.map (fun e => (e.1, rekeyBucket e.2 name item.name id))
      let assignments1 :=
        st.assignments.map (fun e =>
          (e.1, rekeyBucket e.2 name item.name (fun a => { a with itemName := item.name })))
      let st1 : ManagerState :=
        { st with items := items1, parents := parents2, assignments := assignments1 }
      let st2 := saveAssignments st1
      let st3 := saveItems { st2 with items := mset st2.items item.name item }
      (st3, .ok true)
  else
    (saveItems { st with items := mset st.items item.name item }, .ok true)

/-- `getAssignments(username)`: the bucket or an empty map. -/
def getAssignments (st : ManagerState) (username : String) :
    List (String × Assignment) :=
  (mget st.assignments username).getD []

/-- `revokeAll(username)`: false when the user has no bucket; otherwise
replaces the bucket by an empty map and rewrites the assignments document. -/
def revokeAll (st : ManagerState) (username : String) : ManagerState × Bool :=
  if mhas st.assignments username then
    (saveAssignments { st with assignments := mset st.assignments username [] }, true)
  else (st, false)

/-- `getDirectPermissionsByUser(username)`: for each assignment of the user,
look up `items.get(assignment.itemName)` and keep it when Permission-kind,
keyed by the assignment key.  The source dereferences the lookup with a
non-null assertion; the `none` branch is unreachable under the no-dangling
hypothesis of the theorems. -/
def getDirectPermissionsByUser (st : ManagerState) (username : String) :
    List (String × Item) :=
  (getAssignments st username).foldl
    (fun acc e =>
      match mget st.items e.2.itemName with
      | some it => if it.type = .permission then mset acc e.1 it else acc
      | none => acc)
    []

/-- Names collected by `getInheritedPermissionsByUser`: one shared `result`
array threaded through `getChildrenRecursive` for every assigned item name. -/
def inheritedNames (st : ManagerState) (username : String) : List String :=
  (getAssignments st username).foldl
    (fun res e => getChildrenRecursive st.parents e.1 res) []

/-- `getInheritedPermissionsByUser(username)`: the collected names filtered to
existing Permission-kind items, keyed by item name. -/
def getInheritedPermissionsByUser (st : ManagerState) (username : String) :
    List (String × Item) :=
  (inheritedNames st username).foldl
    (fun acc n =>
      match mget st.items n with
      | some it => if it.type = .permission then mset acc n it else acc
      | none => acc)
    []

/-- `getPermissionsByUser(username)`: `new Map([...direct, ...inherited])`. -/
def getPermissionsByUser (st : ManagerState) (username : String) :
    List (String × Item) :=
  (getDirectPermissionsByUser st username ++ getInheritedPermissionsByUser st username).foldl
    (fun acc e => mset acc e.1 e.2) []

/-- `getItems(type)`: the items of one kind, keyed by name. -/
def getItems (st : ManagerState) (t : ItemType) : List (String × Item) :=
  st.items.foldl (fun acc e => if e.2.type = t then mset acc e.1 e.2 else acc) []

/-- Modelled from the spec: `BaseManager.getRole` (outside this repository)
resolves a name through the ItemTable and returns the item only when it is
Role-kind; `getChildRoles` treats a `null` answer as "role not found". -/
def getRole (st : ManagerState) (name : String) : Option Item :=
  match mget st.items name with
  | some it => if it.type = .role then some it else none
  | none => none

/-- Modelled from the spec: `BaseManager.getRoles` returns the Role-kind
items, i.e. `getItems(ItemType.role)` of this class. -/
def getRoles (st : ManagerState) : List (String × Item) :=
  getItems st .role

/-- `getChildRoles(roleName)`: throws when the role does not resolve, else
seeds the answer with the role itself and adds every role whose name was
collected by `getChildrenRecursive(roleName, [])`. -/
def getChildRoles (st : ManagerState) (roleName : String) :
    Except RbacError (List (String × Item)) :=
  match getRole st roleName with
  | none => .error .roleNotFound
  | some role =>
    let result := getChildrenRecursive st.parents roleName []
    .ok ((getRoles st).foldl
      (fun acc e => if e.1 ∈ result then mset acc e.1 e.2 else acc)
      [(roleName, role)])

/-! Load path. -/

/-- Modelled from the spec: `BaseManager.invalidateRbac` (outside this
repository) discards the in-memory items, hierarchy and rules tables
("load() ... rebuilds all four tables ..., discarding prior in-memory
state"); the `assignments` table is owned by `JsonManager` itself and is
cleared separately by the call sites that need it (`removeAll`). -/
def invalidateRbac (st : ManagerState) : ManagerState :=
  { st with items := [], parents := [], rules := [] }

/-- First pass of `load()`: rebuild every item from the items document; the
map key provides the name, and the stored type tag selects `Permission` or
`Role`. -/
def loadItemsPass (doc : List (String × SavedItem)) : ItemsMap :=
  doc.foldl
    (fun acc e =>
      mset acc e.1
        ⟨e.1, (if e.2.type = .permission then .permission else .role),
          e.2.description, e.2.ruleName⟩)
    []

/-- Second pass of `load()`: rebuild the `parents` table from the `children`
lists, silently skipping children that did not load as items.  The source
reads the parent item with a non-null assertion; the first pass inserts every
document key, so the `none` fallback is unreachable. -/
def loadEdgesPass (doc : List (String × SavedItem)) (items1 : ItemsMap) : ParentsMap :=
  doc.foldl
    (fun acc e =>
      e.2.children.foldl
        (fun acc2 childName =>
          if mhas items1 childName then
            match mget items1 e.1 with
            | some pit =>
              match mget acc2 childName with
              | some b => mset acc2 childName (mset b e.1 pit)
              | none => acc2 ++ [(childName, [(e.1, pit)])]
            | none => acc2
          else acc2)
        acc)
    []

/-- Third pass of `load()`: rebuild assignments from the assignments
document, without validating item names (trust-on-read), merging into the
existing `assignments` table. -/
def loadAssignmentsPass (doc : List (String × List String)) (start : AssignMap) :
    AssignMap :=
  doc.foldl
    (fun acc e =>
      e.2.foldl
        (fun acc2 itemName =>
          match mget acc2 e.1 with
          | some b => mset acc2 e.1 (mset b itemName ⟨e.1, itemName⟩)
          | none => acc2 ++ [(e.1, [(itemName, ⟨e.1, itemName⟩)])])
        acc)
    start

/-- Fourth pass of `load()`: rebuild every rule through the caller-supplied
registry.  Modelled from the spec for the constructor part (the rule classes
are external collaborators): a registered tag reconstructs the rule with its
payload; an unrecognized tag falls back to the generic `Rule` class (tag
`"Rule"`), retaining the payload, and never fails. -/
def loadRulesPass (doc : List (String × SavedRule)) (registry : List String) :
    List (String × Rule) :=
  doc.foldl
    (fun acc e =>
      mset acc e.1
        ⟨e.1, (if e.2.typeName ∈ registry then e.2.typeName else "Rule"), e.2.payload⟩)
    []

/-- `load()`: discard the in-memory tables and rebuild them from the three
documents. -/
def load (st : ManagerState) : ManagerState :=
  let st1 := invalidateRbac st
  let items1 := loadItemsPass st.docItems
  { st1 with
      items := items1
      parents := loadEdgesPass st.docItems items1
      assignments := loadAssignmentsPass st.docAssignments st1.assignments
      rules := loadRulesPass st.docRules st.ruleClasses }

/-- `removeAll()`: `invalidateRbac()` then `assignments.clear()`.  No save
method is called. -/
def removeAll (st : ManagerState) : ManagerState :=
  { invalidateRbac st with assignments := [] }

/-! Relational view of the hierarchy, used to state the claims. -/

/-- One upward step: `b` is a recorded parent of `a` (the step taken by
`detectLoop` when walking the ancestor chain). -/
def ancStep (P : ParentsMap) (a b : String) : Prop :=
  ∃ ps, mget P a = some ps ∧ mhas ps b = true

/-- `target` appears in the ancestor chain of `start` (zero or more upward
steps; zero steps covers `parent === child`). -/
def InAncestorChain (P : ParentsMap) (start target : String) : Prop :=
  Relation.ReflTransGen (ancStep P) start target

/-- The hierarchy has no directed cycle. -/
def Acyclic (P : ParentsMap) : Prop :=
  ∀ x, ¬ Relation.TransGen (ancStep P) x x

/-- One downward step: `c` is a child of `a` (some entry of the table lists
`a` among the parents of `c`). -/
def childStep (P : ParentsMap) (a c : String) : Prop :=
  ∃ ps, (c, ps) ∈ P ∧ mhas ps a = true

/-- `c` is transitively reachable from `a` by following child edges (one or
more steps): the descendant set of `a`. -/
def Reaches (P : ParentsMap) (a c : String) : Prop :=
  Relation.TransGen (childStep P) a c

/-- `(c, p)` is an edge of the hierarchy (some entry keyed `c` lists `p`). -/
def EdgeIn (P : ParentsMap) (c p : String) : Prop :=
  ∃ ps, (c, ps) ∈ P ∧ mhas ps p = true

/-- Every stored parent item is named by its key (maintained by `addChild`,
which stores `items.get(parent.name)` under key `parent.name`). -/
def WfParents (P : ParentsMap) : Prop :=
  ∀ e ∈ P, ∀ pe ∈ e.2, (pe.2 : Item).name = pe.1

/-- `(cn, pn)` is an edge, read through `Map.get` as the mutation code does:
the bucket of `cn` lists `pn`. -/
def EdgeM (st : ManagerState) (cn pn : String) : Prop :=
  mhas ((mget st.parents cn).getD []) pn = true

/-- Every member of `R` has all its children in `R` (the invariant that makes
the shared `result` accumulator of `getChildrenRecursive` complete across
successive roots). -/
def ChildClosed (P : ParentsMap) (R : List String) : Prop :=
  ∀ x ∈ R, ∀ y, childStep P x y → y ∈ R

instance (P : ParentsMap) : Decidable (WfParents P) := by
  unfold WfParents
  infer_instance

instance (st : ManagerState) (cn pn : String) : Decidable (EdgeM st cn pn) := by
  unfold EdgeM
  infer_instance

/-- The name `x` resolves to a Permission-kind item. -/
def IsPermName (st : ManagerState) (x : String) : Prop :=
  ∃ it, mget st.items x = some it ∧ it.type = .permission

/-- The name `x` resolves to a Role-kind item. -/
def IsRoleName (st : ManagerState) (x : String) : Prop :=
  ∃ it, mget st.items x = some it ∧ it.type = .role


/-! Concrete states used when settling the claims. -/

/-- Role item named `"A"`. -/
def itemRoleA : Item := { name := "A", type := ItemType.role }

/-- Role item named `"B"`. -/
def itemRoleB : Item := { name := "B", type := ItemType.role }

/-- Role item named `"P"`. -/
def itemRoleP : Item := { name := "P", type := ItemType.role }

/-- Permission item named `"X"`. -/
def itemPermX : Item := { name := "X", type := ItemType.permission }

/-- One role `"P"`, one permission `"X"` that is a child of `"P"` and is
assigned to user `"u"`. -/
def stDeleteCascade : ManagerState :=
  { items := [("P", itemRoleP), ("X", itemPermX)]
    parents := [("X", [("P", itemRoleP)])]
    assignments := [("u", [("X", { username := "u", itemName := "X" })])]
    rules := []
    ruleClasses := []
    docItems := []
    docAssignments := []
    docRules := [] }

/-- A one-item state whose items document is in sync with the tables. -/
def stRemoveAll : ManagerState :=
  { items := [("a", { name := "a", type := ItemType.role })]
    parents := []
    assignments := []
    rules := []
    ruleClasses := []
    docItems := [("a", { type := ItemType.role, name := "a", description := none,
                         ruleName := none, children := [] })]
    docAssignments := []
    docRules := [] }

/-- A single role `"A"` with no edges. -/
def stSelfEdge : ManagerState :=
  { items := [("A", itemRoleA)]
    parents := []
    assignments := []
    rules := []
    ruleClasses := []
    docItems := []
    docAssignments := []
    docRules := [] }

/-- Roles `"A"` and `"B"` with `"A"` a recorded parent of `"B"`; adding `"A"`
as a child of `"B"` would close a cycle. -/
def stCycleWitness : ManagerState :=
  { items := [("A", itemRoleA), ("B", itemRoleB)]
    parents := [("B", [("A", itemRoleA)])]
    assignments := []
    rules := []
    ruleClasses := []
    docItems := []
    docAssignments := []
    docRules := [] }

/-- A permission `"X"` and a role `"A"`, no edges. -/
def stTypeDir : ManagerState :=
  { items := [("X", itemPermX), ("A", itemRoleA)]
    parents := []
    assignments := []
    rules := []
    ruleClasses := []
    docItems := []
    docAssignments := []
    docRules := [] }

/-- User `"bob"` holds one assignment; user `"alice"` has no bucket. -/
def stRevoke : ManagerState :=
  { items := [("r", { name := "r", type := ItemType.role })]
    parents := []
    assignments := [("bob", [("r", { username := "bob", itemName := "r" })])]
    rules := []
    ruleClasses := []
    docItems := []
    docAssignments := []
    docRules := [] }

/-- Role `"old"` with a parent `"p1"`, a child `"c1"`, and an assignment to
`"alice"`; renaming it must cascade through all three tables. -/
def itemOld : Item := { name := "old", type := ItemType.role }

/-- Role item named `"c1"`. -/
def itemC1 : Item := { name := "c1", type := ItemType.role }

/-- Role item named `"p1"`. -/
def itemP1 : Item := { name := "p1", type := ItemType.role }

/-- The renamed item (fresh name `"new"`). -/
def itemNew : Item := { name := "new", type := ItemType.role }

/-- An item whose name collides with the existing `"c1"`. -/
def itemClash : Item := { name := "c1", type := ItemType.role }

/-- State for the rename-cascade analysis. -/
def stRename : ManagerState :=
  { items := [("old", itemOld), ("c1", itemC1), ("p1", itemP1)]
    parents := [("old", [("p1", itemP1)]), ("c1", [("old", itemOld)])]
    assignments := [("alice", [("old", { username := "alice", itemName := "old" })])]
    rules := []
    ruleClasses := []
    docItems := []
    docAssignments := []
    docRules := [] }

/-- Role item named `"admin"`. -/
def itemAdmin : Item := { name := "admin", type := ItemType.role }

/-- Permission item named `"edit"`. -/
def itemEdit : Item := { name := "edit", type := ItemType.permission }

/-- Scenario A of the spec: role `"admin"` with child permission `"edit"`,
assigned to `"alice"`. -/
def stPermUser : ManagerState :=
  { items := [("admin", itemAdmin), ("edit", itemEdit)]
    parents := [("edit", [("admin", itemAdmin)])]
    assignments := [("alice", [("admin", { username := "alice", itemName := "admin" })])]
    rules := []
    ruleClasses := []
    docItems := []
    docAssignments := []
    docRules := [] }

/-- A populated valid state for the round trip: a role with a permission
child, one assignment, and two rules — one whose class tag is registered,
one whose tag is unknown to the registry. -/
def stRound : ManagerState :=
  { items := [("A", itemRoleA), ("X", itemPermX)]
    parents := [("X", [("A", itemRoleA)])]
    assignments := [("u", [("X", { username := "u", itemName := "X" })])]
    rules := [("r1", { name := "r1", typeName := "ActionRule", payload := "p1" }),
              ("r2", { name := "r2", typeName := "CustomRule", payload := "p2" })]
    ruleClasses := ["ActionRule"]
    docItems := []
    docAssignments := []
    docRules := [] }

/-! Lemmas about the `Map` primitives. -/

theorem mget_mset_self {α : Type} (m : List (String × α)) (k : String) (v : α) :
    mget (mset m k v) k = some v := by
  induction m with
  | nil => simp [mset, mget]
  | cons e rest ih =>
    obtain ⟨a, b⟩ := e
    by_cases h : a = k
    · simp [mset, h, mget]
    · simp [mset, h, mget, ih]

theorem mget_mset_ne {α : Type} (m : List (String × α)) (k : String) (v : α)
    (k' : String) (h : k' ≠ k) : mget (mset m k v) k' = mget m k' := by
  have hk : ¬ k = k' := fun he => h he.symm
  induction m with
  | nil => simp [mset, mget, hk]
  | cons e rest ih =>
    obtain ⟨a, b⟩ := e
    by_cases he : a = k
    · subst he
      simp [mset, mget, hk]
    · by_cases he2 : a = k'
      · simp [mset, he, mget, he2, h]
      · simp [mset, he, mget, he2, ih]

theorem mget_mdel_self {α : Type} (m : List (String × α)) (k : String) :
    mget (mdel m k) k = none := by
  induction m with
  | nil => simp [mdel, mget]
  | cons e rest ih =>
    obtain ⟨a, b⟩ := e
    by_cases h : a = k
    · simpa [mdel, h] using ih
    · simp [mdel, h, mget, ih]

theorem mget_mdel_ne {α : Type} (m : List (String × α)) (k k' : String)
    (h : k' ≠ k) : mget (mdel m k) k' = mget m k' := by
  induction m with
  | nil => simp [mdel]
  | cons e rest ih =>
    obtain ⟨a, b⟩ := e
    by_cases he : a = k
    · subst he
      have hk : ¬ a = k' := fun he2 => h he2.symm
      simpa [mdel, mget, hk] using ih
    · by_cases he2 : a = k'
      · simp [mdel, he, mget, he2, h]
      · simp [mdel, he, mget, he2, ih]

theorem mhas_eq_isSome {α : Type} (m : List (String × α)) (k : String) :
    mhas m k = (mget m k).isSome := by
  induction m with
  | nil => simp [mhas, mget]
  | cons e rest ih =>
    obtain ⟨a, b⟩ := e
    by_cases h : a = k
    · simp [mhas, mget, h]
    · simp [mhas, mget, h, ih]

theorem mhas_true_iff {α : Type} (m : List (String × α)) (k : String) :
    mhas m k = true ↔ ∃ v, mget m k = some v := by
  rw [mhas_eq_isSome, Option.isSome_iff_exists]

theorem mget_mem {α : Type} (m : List (String × α)) (k : String) (v : α)
    (h : mget m k = some v) : (k, v) ∈ m := by
  induction m with
  | nil => simp [mget] at h
  | cons e rest ih =>
    obtain ⟨a, b⟩ := e
    by_cases he : a = k
    · subst he
      simp [mget] at h
      simp [h]
    · simp [mget, he] at h
      exact List.mem_cons_of_mem _ (ih h)

theorem mhas_of_mem {α : Type} (m : List (String × α)) (k : String) (v : α)
    (h : (k, v) ∈ m) : mhas m k = true := by
  induction m with
  | nil => simp at h
  | cons e rest ih =>
    obtain ⟨a, b⟩ := e
    rcases List.mem_cons.mp h with h1 | h2
    · have : a = k := (Prod.mk.injEq _ _ _ _ ▸ h1.symm).1
      simp [mhas, this]
    · by_cases he : a = k
      · simp [mhas, he]
      · simp [mhas, he, ih h2]

theorem mhas_append {α : Type} (m m' : List (String × α)) (k : String) :
    mhas (m ++ m') k = (mhas m k || mhas m' k) := by
  induction m with
  | nil => simp [mhas]
  | cons e rest ih =>
    obtain ⟨a, b⟩ := e
    by_cases h : a = k
    · simp [mhas, h]
    · simp [mhas, h, ih]

theorem mget_append_left {α : Type} (m m' : List (String × α)) (k : String)
    (h : mhas m k = true) : mget (m ++ m') k = mget m k := by
  induction m with
  | nil => simp [mhas] at h
  | cons e rest ih =>
    obtain ⟨a, b⟩ := e
    by_cases he : a = k
    · simp [mget, he]
    · simp [mhas, he] at h
      simp [mget, he, ih h]

theorem mget_append_right {α : Type} (m m' : List (String × α)) (k : String)
    (h : mhas m k = false) : mget (m ++ m') k = mget m' k := by
  induction m with
  | nil => simp [mget]
  | cons e rest ih =>
    obtain ⟨a, b⟩ := e
    by_cases he : a = k
    · simp [mhas, he] at h
    · simp [mhas, he] at h
      simp [mget, he, ih h]

theorem mhas_mset {α : Type} (m : List (String × α)) (k : String) (v : α)
    (k' : String) : mhas (mset m k v) k' = (mhas m k' || decide (k' = k)) := by
  by_cases h : k' = k
  · subst h
    simp [mhas_eq_isSome, mget_mset_self]
  · simp [mhas_eq_isSome, mget_mset_ne _ _ _ _ h, h]

theorem mhas_mdel {α : Type} (m : List (String × α)) (k k' : String) :
    mhas (mdel m k) k' = (mhas m k' && decide (k' ≠ k)) := by
  by_cases h : k' = k
  · subst h
    simp [mhas_eq_isSome, mget_mdel_self]
  · simp [mhas_eq_isSome, mget_mdel_ne _ _ _ h, h]

theorem mget_keyed_map {α β : Type} (m : List (String × α))
    (f : String × α → β) (k : String) :
    mget (m.map (fun e => (e.1, f e))) k = (mget m k).map (fun v => f (k, v)) := by
  induction m with
  | nil => simp [mget]
  | cons e rest ih =>
    obtain ⟨a, b⟩ := e
    by_cases h : a = k
    · subst h
      simp [mget]
    · simp [mget, h, ih]

/-! Specification of the `getChildrenRecursive` recursion. -/

/-- Combined specification of one `dfsScan` pass, given the specification of
the recursive continuation: whenever the scan completes, the result extends
`res` by fresh, duplicate-free names, each reachable from `name` by child
edges; every newly added name has all its children in the final result, and
every child of `name` in the scanned portion is in the final result. -/
theorem dfsScan_spec (P : ParentsMap) (rec : String → List String → Option (List String))
    (hrec : ∀ c res res2, rec c res = some res2 →
      (∃ ext, res2 = res ++ ext
        ∧ ext.Nodup
        ∧ (∀ x ∈ ext, x ∉ res)
        ∧ (∀ x ∈ ext, Reaches P c x)
        ∧ (∀ x ∈ ext, ∀ y, childStep P x y → y ∈ res2))
      ∧ (∀ c2 ps2, (c2, ps2) ∈ P → mhas ps2 c = true → c2 ∈ res2)) (name : String) :
    ∀ l res res2, (∀ e ∈ l, e ∈ P) →
      dfsScan rec name l res = some res2 →
      (∃ ext, res2 = res ++ ext
        ∧ ext.Nodup
        ∧ (∀ x ∈ ext, x ∉ res)
        ∧ (∀ x ∈ ext, Reaches P name x)
        ∧ (∀ x ∈ ext, ∀ y, childStep P x y → y ∈ res2))
      ∧ (∀ c ps, (c, ps) ∈ l → mhas ps name = true → c ∈ res2) := by
  intro l
  induction l with
  | nil =>
    intro res res2 _ h
    simp only [dfsScan, Option.some.injEq] at h
    subst h
    refine ⟨⟨[], by simp, by simp, by simp, by simp, by simp⟩, ?_⟩
    intro c ps hmem
    simp at hmem
  | cons e rest ihL =>
    obtain ⟨c, ps⟩ := e
    intro res res2 hsub h
    have hsubrest : ∀ e ∈ rest, e ∈ P := fun e he => hsub e (List.mem_cons_of_mem _ he)
    rw [dfsScan] at h
    by_cases hskip : c ∈ res ∨ mhas ps name = false
    · rw [if_pos hskip] at h
      obtain ⟨hspec, hchild⟩ := ihL res res2 hsubrest h
      refine ⟨hspec, ?_⟩
      intro c2 ps2 hmem hps
      rcases List.mem_cons.mp hmem with h1 | h2
      · have hc : c2 = c := congrArg Prod.fst h1
        have hp : ps2 = ps := congrArg Prod.snd h1
        subst hc; subst hp
        rcases hskip with hin | hfalse
        · obtain ⟨ext, hres2, _⟩ := hspec
          subst hres2
          exact List.mem_append_left _ hin
        · rw [hps] at hfalse
          cases hfalse
      · exact hchild c2 ps2 h2 hps
    · rw [if_neg hskip] at h
      push_neg at hskip
      obtain ⟨hcres, hpsne⟩ := hskip
      have hps : mhas ps name = true := by
        cases hv : mhas ps name with
        | false => exact absurd hv hpsne
        | true => rfl
      cases hinner : rec c (res ++ [c]) with
      | none => rw [hinner] at h; simp at h
      | some res1 =>
        rw [hinner] at h
        simp only at h
        obtain ⟨⟨ext1, hres1, hnd1, hfresh1, hreach1, hclosed1⟩, hchild1⟩ :=
          hrec c (res ++ [c]) res1 hinner
        obtain ⟨⟨ext2, hres2, hnd2, hfresh2, hreach2, hclosed2⟩, hchild2⟩ :=
          ihL res1 res2 hsubrest h
        have hstep : childStep P name c := ⟨ps, hsub (c, ps) (List.mem_cons_self _ _), hps⟩
        have hr1sub : ∀ x ∈ res1, x ∈ res2 := by
          intro x hx; subst hres2; exact List.mem_append_left _ hx
        have hext1fresh : ∀ x ∈ ext1, x ∉ res ∧ x ≠ c := by
          intro x hx
          have := hfresh1 x hx
          simp [List.mem_append] at this
          exact this
        have hext2fresh : ∀ x ∈ ext2, x ∉ res ∧ x ≠ c ∧ x ∉ ext1 := by
          intro x hx
          have := hfresh2 x hx
          rw [hres1] at this
          simp [List.mem_append] at this
          exact this
        refine ⟨⟨c :: (ext1 ++ ext2), ?_, ?_, ?_, ?_, ?_⟩, ?_⟩
        · subst hres2; subst hres1; simp
        · refine List.Nodup.cons ?_ (List.Nodup.append hnd1 hnd2 ?_)
          · intro hc
            rcases List.mem_append.mp hc with h1 | h2
            · exact (hext1fresh c h1).2 rfl
            · exact (hext2fresh c h2).2.1 rfl
          · intro x h1 h2
            exact (hext2fresh x h2).2.2 h1
        · intro x hx
          rcases List.mem_cons.mp hx with h1 | h12
          · subst h1; exact hcres
          · rcases List.mem_append.mp h12 with h1 | h2
            · exact (hext1fresh x h1).1
            · exact (hext2fresh x h2).1
        · intro x hx
          rcases List.mem_cons.mp hx with h1 | h12
          · subst h1; exact Relation.TransGen.single hstep
          · rcases List.mem_append.mp h12 with h1 | h2
            · exact Relation.TransGen.head hstep (hreach1 x h1)
            · exact hreach2 x h2
        · intro x hx y hy
          rcases List.mem_cons.mp hx with h1 | h12
          · subst h1
            obtain ⟨psy, hymem, hyhas⟩ := hy
            exact hr1sub _ (hchild1 y psy hymem hyhas)
          · rcases List.mem_append.mp h12 with h1 | h2
            · exact hr1sub _ (hclosed1 x h1 y hy)
            · exact hclosed2 x h2 y hy
        · intro c2 ps2 hmem hpsm
          rcases List.mem_cons.mp hmem with h1 | h2
          · have hc : c2 = c := congrArg Prod.fst h1
            subst hc
            refine hr1sub _ ?_
            subst hres1
            exact List.mem_append_left _ (List.mem_append_right _ (List.mem_singleton.mpr rfl))
          · exact hchild2 c2 ps2 h2 hpsm

/-- Combined specification of `dfsAux` (any budget). -/
theorem dfsAux_spec (P : ParentsMap) :
    ∀ fuel name res res2, dfsAux P fuel name res = some res2 →
      (∃ ext, res2 = res ++ ext
        ∧ ext.Nodup
        ∧ (∀ x ∈ ext, x ∉ res)
        ∧ (∀ x ∈ ext, Reaches P name x)
        ∧ (∀ x ∈ ext, ∀ y, childStep P x y → y ∈ res2))
      ∧ (∀ c ps, (c, ps) ∈ P → mhas ps name = true → c ∈ res2) := by
  intro fuel
  induction fuel with
  | zero =>
    intro name res res2 h
    simp [dfsAux] at h
  | succ fuel ih =>
    intro name res res2 h
    exact dfsScan_spec P (dfsAux P fuel) (fun c r r2 hc => ih c r r2 hc) name P res res2
      (fun e he => he) h

/-- Auxiliary: removing one present element from a duplicate-free list by
filtering strictly shrinks it. -/
theorem length_filter_ne_lt (c : String) (L : List String) (hnd : L.Nodup) (hc : c ∈ L) :
    (L.filter (fun x => decide (x ≠ c))).length < L.length := by
  induction L with
  | nil => simp at hc
  | cons a rest ih =>
    rcases List.nodup_cons.mp hnd with ⟨hna, hndr⟩
    rw [List.filter_cons]
    by_cases hac : a = c
    · subst hac
      rw [if_neg (by simp)]
      have hrest : rest.filter (fun x => decide (x ≠ a)) = rest := by
        apply List.filter_eq_self.mpr
        intro x hx
        simp
        intro hxa
        exact hna (hxa ▸ hx)
      rw [hrest]
      exact Nat.lt_succ_self _
    · rw [if_pos (by simp [hac])]
      rcases List.mem_cons.mp hc with h1 | h2
      · exact absurd h1.symm hac
      · have := ih hndr h2
        simp only [List.length_cons]
        omega

/-- Auxiliary: visiting a fresh key strictly shrinks the set of unvisited keys. -/
theorem keysLeft_dec (l : List String) (res : List String) (c : String) (hc : c ∈ l)
    (hnd : l.Nodup) (hcres : c ∉ res) :
    (l.filter (fun x => decide (x ∉ res ++ [c]))).length
      < (l.filter (fun x => decide (x ∉ res))).length := by
  have hpred : ∀ x ∈ l, (decide (x ∉ res ++ [c])) = (decide (x ≠ c) && decide (x ∉ res)) := by
    intro x _
    by_cases h1 : x ∈ res <;> by_cases h2 : x = c <;> simp [h1, h2]
  rw [List.filter_congr hpred, ← List.filter_filter]
  have h2 : (l.filter (fun x => decide (x ∉ res))).Nodup := hnd.filter _
  have h3 : c ∈ l.filter (fun x => decide (x ∉ res)) := by
    rw [List.mem_filter]; exact ⟨hc, by simp [hcres]⟩
  exact length_filter_ne_lt c _ h2 h3

/-- Auxiliary: filtering by a stronger Boolean predicate gives a shorter list. -/
theorem length_filter_anti (l : List String) (p q : String → Bool)
    (h : ∀ a, p a = true → q a = true) :
    (l.filter p).length ≤ (l.filter q).length := by
  induction l with
  | nil => simp
  | cons a rest ih =>
    rw [List.filter_cons, List.filter_cons]
    cases hp : p a with
    | true =>
      rw [if_pos (by simp [hp]), if_pos (by simp [h a hp])]
      simpa using ih
    | false =>
      rw [if_neg (by simp [hp])]
      split
      · exact Nat.le_succ_of_le ih
      · exact ih

/-- Termination of one `dfsScan` pass, given an extension property and a
budgeted totality property of the continuation. -/
theorem dfsScan_total (P : ParentsMap) (rec : String → List String → Option (List String))
    (F : Nat)
    (hrecS : ∀ c res res2, rec c res = some res2 → ∃ ext, res2 = res ++ ext)
    (hrecT : ∀ c res, (((mkeys P).dedup).filter (fun x => decide (x ∉ res))).length < F →
      (rec c res).isSome = true) (name : String) :
    ∀ l res, (∀ e ∈ l, e ∈ P) →
      (((mkeys P).dedup).filter (fun x => decide (x ∉ res))).length ≤ F →
      (dfsScan rec name l res).isSome = true := by
  intro l
  induction l with
  | nil =>
    intro res _ _
    simp [dfsScan]
  | cons e rest ihL =>
    obtain ⟨c, ps⟩ := e
    intro res hsub hfuel
    have hsubrest : ∀ e ∈ rest, e ∈ P := fun e he => hsub e (List.mem_cons_of_mem _ he)
    rw [dfsScan]
    by_cases hskip : c ∈ res ∨ mhas ps name = false
    · rw [if_pos hskip]
      exact ihL res hsubrest hfuel
    · rw [if_neg hskip]
      push_neg at hskip
      obtain ⟨hcres, _⟩ := hskip
      have hckey : c ∈ (mkeys P).dedup :=
        List.mem_dedup.mpr
          (List.mem_map.mpr ⟨(c, ps), hsub _ (List.mem_cons_self _ _), rfl⟩)
      have hdec := keysLeft_dec ((mkeys P).dedup) res c hckey (List.nodup_dedup _) hcres
      have hpos : 0 < ((mkeys P).dedup.filter (fun x => decide (x ∉ res))).length :=
        List.length_pos_of_mem (List.mem_filter.mpr ⟨hckey, by simp [hcres]⟩)
      have hinner := hrecT c (res ++ [c]) (by omega)
      cases hin : rec c (res ++ [c]) with
      | none => rw [hin] at hinner; simp at hinner
      | some res1 =>
        simp only
        obtain ⟨ext1, hres1⟩ := hrecS c (res ++ [c]) res1 hin
        have hmono : (((mkeys P).dedup).filter (fun x => decide (x ∉ res1))).length
            ≤ (((mkeys P).dedup).filter (fun x => decide (x ∉ res ++ [c]))).length := by
          apply length_filter_anti
          intro a ha
          simp only [decide_eq_true_eq] at ha ⊢
          intro hmem
          exact ha (hres1 ▸ List.mem_append_left _ hmem)
        exact ihL res1 hsubrest (by omega)

/-- Termination of `dfsAux`: the recursion completes whenever the budget
exceeds the number of distinct child keys not yet in `result` — regardless of
cycles or dangling names in the table. -/
theorem dfsAux_total (P : ParentsMap) :
    ∀ fuel name res,
      (((mkeys P).dedup).filter (fun x => decide (x ∉ res))).length < fuel →
      (dfsAux P fuel name res).isSome = true := by
  intro fuel
  induction fuel with
  | zero =>
    intro name res h
    omega
  | succ fuel ih =>
    intro name res h
    rw [show dfsAux P (fuel + 1) name res = dfsScan (dfsAux P fuel) name P res from rfl]
    refine dfsScan_total P (dfsAux P fuel) fuel ?_ ?_ name P res (fun e he => he) (by omega)
    · intro c r r2 hc
      obtain ⟨⟨ext, hext, _⟩, _⟩ := dfsAux_spec P fuel c r r2 hc
      exact ⟨ext, hext⟩
    · intro c r hr
      exact ih c r hr

/-- The canonical budget of `getChildrenRecursive` always suffices. -/
theorem getChildrenRecursive_eq (P : ParentsMap) (name : String) (res : List String) :
    dfsAux P (P.length + 1) name res = some (getChildrenRecursive P name res) := by
  have hb : (((mkeys P).dedup).filter (fun x => decide (x ∉ res))).length < P.length + 1 := by
    have h1 : (((mkeys P).dedup).filter (fun x => decide (x ∉ res))).length
        ≤ ((mkeys P).dedup).length := List.length_filter_le _ _
    have h2 : ((mkeys P).dedup).length ≤ (mkeys P).length := (List.dedup_sublist _).length_le
    have h3 : (mkeys P).length = P.length := List.length_map _ _
    omega
  have ht := dfsAux_total P (P.length + 1) name res hb
  cases hd : dfsAux P (P.length + 1) name res with
  | none => rw [hd] at ht; simp at ht
  | some r => simp [getChildrenRecursive, hd]

/-- Specification of `getChildrenRecursive`: it extends `result` by fresh,
duplicate-free descendants of `name`, every added name has all its children
in the output, and every child of `name` is in the output. -/
theorem getChildrenRecursive_spec (P : ParentsMap) (name : String) (res : List String) :
    ∃ ext, getChildrenRecursive P name res = res ++ ext
      ∧ ext.Nodup
      ∧ (∀ x ∈ ext, x ∉ res)
      ∧ (∀ x ∈ ext, Reaches P name x)
      ∧ (∀ x ∈ ext, ∀ y, childStep P x y → y ∈ getChildrenRecursive P name res)
      ∧ (∀ y, childStep P name y → y ∈ getChildrenRecursive P name res) := by
  obtain ⟨⟨ext, h1, h2, h3, h4, h5⟩, h6⟩ :=
    dfsAux_spec P (P.length + 1) name res (getChildrenRecursive P name res)
      (getChildrenRecursive_eq P name res)
  exact ⟨ext, h1, h2, h3, h4, h5, fun y hy => by
    obtain ⟨ps, hmem, hps⟩ := hy
    exact h6 y ps hmem hps⟩

/-- Reachable names stay inside a child-closed set that contains the direct
children of the start. -/
theorem mem_of_reaches_closed (P : ParentsMap) (R : List String) (n x : String)
    (hc : ChildClosed P R) (hn : ∀ y, childStep P n y → y ∈ R)
    (hr : Reaches P n x) : x ∈ R := by
  induction hr with
  | single h => exact hn _ h
  | tail _ hstep ih => exact hc _ ih _ hstep

/-- A run of `getChildrenRecursive` preserves child-closure of the shared
accumulator. -/
theorem getChildrenRecursive_closed (P : ParentsMap) (name : String) (res : List String)
    (h : ChildClosed P res) : ChildClosed P (getChildrenRecursive P name res) := by
  obtain ⟨ext, h1, _, _, _, h5, _⟩ := getChildrenRecursive_spec P name res
  intro x hx y hy
  rw [h1] at hx
  rcases List.mem_append.mp hx with hxs | hxe
  · rw [h1]
    exact List.mem_append_left _ (h _ hxs _ hy)
  · exact h5 x hxe y hy

/-- Folding `getChildrenRecursive` over a list of roots with a shared
accumulator collects exactly the names reachable from some root (on top of
the starting accumulator). -/
theorem gcr_fold (P : ParentsMap) (roots : List String) :
    ∀ start, ChildClosed P start →
      (ChildClosed P (roots.foldl (fun res r => getChildrenRecursive P r res) start)
        ∧ (∀ x ∈ start, x ∈ roots.foldl (fun res r => getChildrenRecursive P r res) start))
      ∧ (∀ x, x ∈ roots.foldl (fun res r => getChildrenRecursive P r res) start →
            x ∈ start ∨ ∃ r ∈ roots, Reaches P r x)
      ∧ (∀ r ∈ roots, ∀ x, Reaches P r x →
            x ∈ roots.foldl (fun res r => getChildrenRecursive P r res) start) := by
  induction roots with
  | nil =>
    intro start h
    refine ⟨⟨h, fun x hx => hx⟩, fun x hx => Or.inl hx, ?_⟩
    intro r hr
    simp at hr
  | cons r roots ih =>
    intro start h
    obtain ⟨ext, h1, _, _, h4, h5, h6⟩ := getChildrenRecursive_spec P r start
    have hstart2 : ChildClosed P (getChildrenRecursive P r start) :=
      getChildrenRecursive_closed P r start h
    obtain ⟨⟨ihc, ihsub⟩, ihback, ihroots⟩ := ih (getChildrenRecursive P r start) hstart2
    have hsub2 : ∀ x ∈ start, x ∈ getChildrenRecursive P r start := by
      intro x hx
      rw [h1]
      exact List.mem_append_left _ hx
    refine ⟨⟨by simpa using ihc, ?_⟩, ?_, ?_⟩
    · intro x hx
      simpa using ihsub x (hsub2 x hx)
    · intro x hx
      simp at hx
      rcases ihback x hx with hx1 | ⟨r2, hr2, hreach⟩
      · rw [h1] at hx1
        rcases List.mem_append.mp hx1 with hxs | hxe
        · exact Or.inl hxs
        · exact Or.inr ⟨r, List.mem_cons_self _ _, h4 x hxe⟩
      · exact Or.inr ⟨r2, List.mem_cons_of_mem _ hr2, hreach⟩
    · intro r2 hr2 x hreach
      rcases List.mem_cons.mp hr2 with hre | hrm
      · subst hre
        have hchild : ∀ y, childStep P r2 y →
            y ∈ roots.foldl (fun res r => getChildrenRecursive P r res)
              (getChildrenRecursive P r2 start) := by
          intro y hy
          exact ihsub y (h6 y hy)
        simp only [List.foldl_cons]
        exact mem_of_reaches_closed P _ r2 x ihc hchild hreach
      · simpa using ihroots r2 hrm x hreach

/-- Reachability of a single `getChildrenRecursive` run started on an empty
accumulator: the output is exactly the descendant set. -/
theorem getChildrenRecursive_nil_mem (P : ParentsMap) (n x : String) :
    x ∈ getChildrenRecursive P n [] ↔ Reaches P n x := by
  obtain ⟨ext, h1, _, _, h4, h5, h6⟩ := getChildrenRecursive_spec P n []
  constructor
  · intro hx
    rw [h1] at hx
    simp at hx
    exact h4 x hx
  · intro hr
    have hc : ChildClosed P (getChildrenRecursive P n []) := by
      intro a ha y hy
      rw [h1] at ha
      simp at ha
      exact h5 a ha y hy
    exact mem_of_reaches_closed P _ n x hc h6 hr

/-! Specification of `detectLoop`. -/

/-- When the grandparent loop completes, it answers `true` exactly when some
pending item answers `true`. -/
theorem loopScan_correct (rec : Item → Option Bool) :
    ∀ gs b, loopScan rec gs = some b → (b = true ↔ ∃ g ∈ gs, rec g = some true) := by
  intro gs
  induction gs with
  | nil =>
    intro b h
    simp only [loopScan, Option.some.injEq] at h
    subst h
    simp
  | cons g rest ih =>
    intro b h
    rw [loopScan] at h
    cases hg : rec g with
    | none => rw [hg] at h; simp at h
    | some bg =>
      rw [hg] at h
      cases bg with
      | true =>
        simp only [Option.some.injEq] at h
        subst h
        simp only [true_iff]
        exact ⟨g, List.mem_cons_self _ _, hg⟩
      | false =>
        simp only at h
        rw [ih b h]
        constructor
        · rintro ⟨g2, hg2, hb2⟩
          exact ⟨g2, List.mem_cons_of_mem _ hg2, hb2⟩
        · rintro ⟨g2, hg2, hb2⟩
          rcases List.mem_cons.mp hg2 with he | hm
          · rw [he, hg] at hb2
            cases hb2
          · exact ⟨g2, hm, hb2⟩

/-- When the grandparent loop answers `false`, every pending item answered
`false`. -/
theorem loopScan_false (rec : Item → Option Bool) :
    ∀ gs, loopScan rec gs = some false → ∀ g ∈ gs, rec g = some false := by
  intro gs
  induction gs with
  | nil =>
    intro _ g hg
    simp at hg
  | cons g rest ih =>
    intro h g2 hg2
    rw [loopScan] at h
    cases hg : rec g with
    | none => rw [hg] at h; simp at h
    | some bg =>
      rw [hg] at h
      cases bg with
      | true => simp at h
      | false =>
        simp only at h
        rcases List.mem_cons.mp hg2 with he | hm
        · rw [he]; exact hg
        · exact ih h g2 hm

/-- The grandparent loop completes when every pending item completes. -/
theorem loopScan_total (rec : Item → Option Bool) :
    ∀ gs, (∀ g ∈ gs, (rec g).isSome = true) → (loopScan rec gs).isSome = true := by
  intro gs
  induction gs with
  | nil => intro _; simp [loopScan]
  | cons g rest ih =>
    intro h
    rw [loopScan]
    cases hg : rec g with
    | none =>
      have := h g (List.mem_cons_self _ _)
      rw [hg] at this
      simp at this
    | some bg =>
      cases bg with
      | true => simp
      | false =>
        simp only
        exact ih (fun g2 hg2 => h g2 (List.mem_cons_of_mem _ hg2))

/-- Correctness of `detectLoop`: when it completes, it answers `true`
exactly when `child.name` occurs in the ancestor chain of `parent`. -/
theorem detectLoopF_correct (P : ParentsMap) (IT : ItemsMap) (hwf : WfParents P)
    (child : Item) (hc : mhas IT child.name = true) :
    ∀ fuel parent b, detectLoopF P IT fuel parent child = some b →
      (b = true ↔ InAncestorChain P parent.name child.name) := by
  intro fuel
  induction fuel with
  | zero =>
    intro parent b h
    simp [detectLoopF] at h
  | succ fuel ih =>
    intro parent b h
    rw [detectLoopF] at h
    by_cases heq : parent.name = child.name
    · rw [if_pos heq] at h
      simp only [Option.some.injEq] at h
      subst h
      simp only [true_iff]
      exact heq ▸ Relation.ReflTransGen.refl
    · rw [if_neg heq] at h
      by_cases hskip : mhas P parent.name = false ∨ mhas IT child.name = false
      · rw [if_pos hskip] at h
        simp only [Option.some.injEq] at h
        subst h
        constructor
        · intro hb
          cases hb
        · intro hch
          exfalso
          rcases Relation.ReflTransGen.cases_head hch with heq2 | ⟨y, hstep, _⟩
          · exact heq heq2
          · obtain ⟨ps, hget, _⟩ := hstep
            rcases hskip with hnp | hni
            · rw [mhas_eq_isSome, hget] at hnp
              cases hnp
            · rw [hni] at hc
              cases hc
      · rw [if_neg hskip] at h
        push_neg at hskip
        obtain ⟨hPg0, _⟩ := hskip
        have hPg : mhas P parent.name = true := by
          cases hv : mhas P parent.name with
          | false => exact absurd hv hPg0
          | true => rfl
        obtain ⟨ps, hps⟩ := (mhas_true_iff _ _).mp hPg
        have hbucket : (parent.name, ps) ∈ P := mget_mem _ _ _ hps
        rw [hps] at h
        simp only [Option.getD_some] at h
        have hvals : ∀ gp ∈ ps.map Prod.snd, ancStep P parent.name gp.name := by
          intro gp hgp
          obtain ⟨pe, hpe, hpe2⟩ := List.mem_map.mp hgp
          have hname : gp.name = pe.1 := by
            rw [← hpe2]
            exact hwf _ hbucket pe hpe
          refine ⟨ps, hps, ?_⟩
          rw [hname]
          exact mhas_of_mem _ _ _ (by rw [← Prod.mk.eta (p := pe)] at hpe; exact hpe)
        have hiff := loopScan_correct (fun g => detectLoopF P IT fuel g child)
          (ps.map Prod.snd) b h
        constructor
        · intro hb
          obtain ⟨gp, hgp, hgtrue⟩ := hiff.mp hb
          have hch : InAncestorChain P gp.name child.name := (ih gp true hgtrue).mp rfl
          exact Relation.ReflTransGen.head (hvals gp hgp) hch
        · intro hch
          cases b with
          | true => rfl
          | false =>
            exfalso
            rcases Relation.ReflTransGen.cases_head hch with heq2 | ⟨y, hstep, hch2⟩
            · exact heq heq2
            · obtain ⟨ps2, hget2, hhasy⟩ := hstep
              have hps2 : ps2 = ps := by
                rw [hps] at hget2
                exact (Option.some.injEq _ _ ▸ hget2).symm
              subst hps2
              obtain ⟨v, hv⟩ := (mhas_true_iff _ _).mp hhasy
              have hvmem : (y, v) ∈ ps2 := mget_mem _ _ _ hv
              have hvname : v.name = y := hwf _ hbucket (y, v) hvmem
              have hvval : v ∈ ps2.map Prod.snd := List.mem_map.mpr ⟨(y, v), hvmem, rfl⟩
              have hvfalse := loopScan_false _ _ h v hvval
              have : (false : Bool) = true := (ih v false hvfalse).mpr (hvname ▸ hch2)
              cases this

/-- Termination of the `detectLoop` recursion under the acyclicity invariant:
the ancestor chain explored so far (`path`) can never repeat, so the distinct
keys of the table bound the recursion depth. -/
theorem detectLoopF_total (P : ParentsMap) (IT : ItemsMap) (hwf : WfParents P)
    (hacyc : Acyclic P) (child : Item) :
    ∀ fuel parent (path : List String),
      (∀ x ∈ path, Relation.TransGen (ancStep P) x parent.name) →
      (((mkeys P).dedup).filter (fun x => decide (x ∉ path))).length < fuel →
      (detectLoopF P IT fuel parent child).isSome = true := by
  intro fuel
  induction fuel with
  | zero =>
    intro parent path _ h
    omega
  | succ fuel ih =>
    intro parent path hinv hfuel
    rw [detectLoopF]
    by_cases heq : parent.name = child.name
    · rw [if_pos heq]
      simp
    · rw [if_neg heq]
      by_cases hskip : mhas P parent.name = false ∨ mhas IT child.name = false
      · rw [if_pos hskip]
        simp
      · rw [if_neg hskip]
        push_neg at hskip
        obtain ⟨hPg0, _⟩ := hskip
        have hPg : mhas P parent.name = true := by
          cases hv : mhas P parent.name with
          | false => exact absurd hv hPg0
          | true => rfl
        obtain ⟨ps, hps⟩ := (mhas_true_iff _ _).mp hPg
        have hbucket : (parent.name, ps) ∈ P := mget_mem _ _ _ hps
        have hkey : parent.name ∈ (mkeys P).dedup :=
          List.mem_dedup.mpr (List.mem_map.mpr ⟨(parent.name, ps), hbucket, rfl⟩)
        have hnotpath : parent.name ∉ path := by
          intro hp
          exact hacyc parent.name (hinv parent.name hp)
        have hdec := keysLeft_dec ((mkeys P).dedup) path parent.name hkey
          (List.nodup_dedup _) hnotpath
        rw [hps]
        simp only [Option.getD_some]
        apply loopScan_total
        intro gp hgp
        obtain ⟨pe, hpe, hpe2⟩ := List.mem_map.mp hgp
        have hname : gp.name = pe.1 := by
          rw [← hpe2]
          exact hwf _ hbucket pe hpe
        have hstep : ancStep P parent.name gp.name := by
          refine ⟨ps, hps, ?_⟩
          rw [hname]
          exact mhas_of_mem _ _ _ (by rw [← Prod.mk.eta (p := pe)] at hpe; exact hpe)
        have hinv2 : ∀ x ∈ path ++ [parent.name],
            Relation.TransGen (ancStep P) x gp.name := by
          intro x hx
          rcases List.mem_append.mp hx with hx1 | hx2
          · exact Relation.TransGen.tail (hinv x hx1) hstep
          · rw [List.mem_singleton.mp hx2]
            exact Relation.TransGen.single hstep
        exact ih gp (path ++ [parent.name]) hinv2 (by omega)

/-! Adding one edge to an acyclic relation. -/

/-- Decomposition of a reflexive-transitive chain over a relation extended by
the single pair `(u, v)`: either the chain avoids the new pair, or it has a
prefix in the old relation ending at `u` and the remainder starts at `v`. -/
theorem rtg_union_decomp {R : String → String → Prop} {u v : String} :
    ∀ a b, Relation.ReflTransGen (fun x y => R x y ∨ (x = u ∧ y = v)) a b →
      Relation.ReflTransGen R a b
        ∨ (Relation.ReflTransGen R a u ∧ Relation.ReflTransGen R v b) := by
  intro a b h
  induction h using Relation.ReflTransGen.head_induction_on with
  | refl => exact Or.inl Relation.ReflTransGen.refl
  | head hstep _ ih =>
    rcases hstep with hR | ⟨hxu, hyv⟩
    · rcases ih with h1 | ⟨h1, h2⟩
      · exact Or.inl (Relation.ReflTransGen.head hR h1)
      · exact Or.inr ⟨Relation.ReflTransGen.head hR h1, h2⟩
    · subst hxu
      subst hyv
      rcases ih with h1 | ⟨_, h2⟩
      · exact Or.inr ⟨Relation.ReflTransGen.refl, h1⟩
      · exact Or.inr ⟨Relation.ReflTransGen.refl, h2⟩

/-- Adding the pair `(u, v)` to an acyclic relation keeps it acyclic as long
as `u` is not reachable from `v` in the old relation. -/
theorem acyclic_insert_pair {R : String → String → Prop} {u v : String}
    (hacyc : ∀ x, ¬ Relation.TransGen R x x)
    (hvu : ¬ Relation.ReflTransGen R v u) :
    ∀ x, ¬ Relation.TransGen (fun x y => R x y ∨ (x = u ∧ y = v)) x x := by
  intro x hcyc
  rcases (Relation.TransGen.head'_iff).mp hcyc with ⟨y, hstep, hrest⟩
  rcases rtg_union_decomp y x hrest with hyx | ⟨hyu, hvx⟩
  · rcases hstep with hR | ⟨hxu, hyv⟩
    · exact hacyc x ((Relation.TransGen.head'_iff).mpr ⟨y, hR, hyx⟩)
    · subst hxu
      subst hyv
      exact hvu hyx
  · rcases hstep with hR | ⟨hxu, hyv⟩
    · exact hvu (hvx.trans (Relation.ReflTransGen.head hR hyu))
    · subst hyv
      exact hvu hyu

theorem mget_none_of_mhas_false {α : Type} (m : List (String × α)) (k : String)
    (h : mhas m k = false) : mget m k = none := by
  rw [mhas_eq_isSome] at h
  cases hg : mget m k with
  | none => rfl
  | some v => rw [hg] at h; cases h

/-- The upward-step relation of the hierarchy after `addChild` records the
edge: it is the old relation plus exactly the pair `(child.name, parent.name)`. -/
theorem ancStep_addChild (P : ParentsMap) (cn pn : String) (pit : Item) :
    ∀ a b,
      ancStep
        (if mhas P cn then mset P cn (mset ((mget P cn).getD []) pn pit)
         else P ++ [(cn, [(pn, pit)])]) a b
      ↔ (ancStep P a b ∨ (a = cn ∧ b = pn)) := by
  intro a b
  by_cases hcn : mhas P cn
  · rw [if_pos hcn]
    obtain ⟨ps, hps⟩ := (mhas_true_iff _ _).mp hcn
    rw [hps]
    simp only [Option.getD_some]
    by_cases hacn : a = cn
    · subst hacn
      constructor
      · rintro ⟨ps2, hget2, hhas⟩
        rw [mget_mset_self] at hget2
        have hps2 : ps2 = mset ps pn pit := by
          exact (Option.some.injEq _ _ ▸ hget2).symm
        subst hps2
        rw [mhas_mset] at hhas
        rcases Bool.or_eq_true_iff.mp hhas with h1 | h2
        · exact Or.inl ⟨ps, hps, h1⟩
        · exact Or.inr ⟨rfl, of_decide_eq_true h2⟩
      · rintro (⟨ps2, hget2, hhas⟩ | ⟨_, hb⟩)
        · have hps2 : ps2 = ps := by
            rw [hps] at hget2
            exact (Option.some.injEq _ _ ▸ hget2).symm
          subst hps2
          refine ⟨mset ps2 pn pit, mget_mset_self _ _ _, ?_⟩
          rw [mhas_mset, hhas]
          simp
        · refine ⟨mset ps pn pit, mget_mset_self _ _ _, ?_⟩
          rw [mhas_mset, hb]
          simp
    · constructor
      · rintro ⟨ps2, hget2, hhas⟩
        rw [mget_mset_ne _ _ _ _ hacn] at hget2
        exact Or.inl ⟨ps2, hget2, hhas⟩
      · rintro (⟨ps2, hget2, hhas⟩ | ⟨hac, _⟩)
        · refine ⟨ps2, ?_, hhas⟩
          rw [mget_mset_ne _ _ _ _ hacn]
          exact hget2
        · exact absurd hac hacn
  · rw [if_neg hcn]
    have hcnf : mhas P cn = false := by
      cases hv : mhas P cn with
      | false => rfl
      | true => exact absurd hv hcn
    have hnone : mget P cn = none := mget_none_of_mhas_false _ _ hcnf
    by_cases hacn : a = cn
    · subst hacn
      constructor
      · rintro ⟨ps2, hget2, hhas⟩
        rw [mget_append_right _ _ _ hcnf] at hget2
        simp [mget] at hget2
        subst hget2
        rw [mhas_eq_isSome] at hhas
        simp [mget] at hhas
        by_cases hbp : pn = b
        · exact Or.inr ⟨rfl, hbp.symm⟩
        · simp [hbp] at hhas
      · rintro (⟨ps2, hget2, _⟩ | ⟨_, hb⟩)
        · rw [hnone] at hget2
          cases hget2
        · refine ⟨[(pn, pit)], ?_, ?_⟩
          · rw [mget_append_right _ _ _ hcnf]
            simp [mget]
          · rw [hb]
            simp [mhas]
    · constructor
      · rintro ⟨ps2, hget2, hhas⟩
        by_cases hha : mhas P a = true
        · rw [mget_append_left _ _ _ hha] at hget2
          exact Or.inl ⟨ps2, hget2, hhas⟩
        · rw [mget_append_right _ _ _ (by
            cases hv : mhas P a with
            | false => rfl
            | true => exact absurd hv hha)] at hget2
          have hca : ¬ cn = a := fun h2 => hacn h2.symm
          simp [mget, hca] at hget2
      · rintro (⟨ps2, hget2, hhas⟩ | ⟨hac, _⟩)
        · refine ⟨ps2, ?_, hhas⟩
          rw [mget_append_left _ _ _ (by rw [mhas_eq_isSome, hget2]; rfl)]
          exact hget2
        · exact absurd hac hacn

/-- The canonical fuel of `addChildTop` suffices for `detectLoop` whenever
the hierarchy is acyclic. -/
theorem detectLoop_top_some (st : ManagerState) (hwf : WfParents st.parents)
    (hacyc : Acyclic st.parents) (p c : Item) :
    ∃ b, detectLoopF st.parents st.items (st.parents.length + 1) p c = some b := by
  have hbound : (((mkeys st.parents).dedup).filter
      (fun x => decide (x ∉ ([] : List String)))).length < st.parents.length + 1 := by
    have h1 : (((mkeys st.parents).dedup).filter
        (fun x => decide (x ∉ ([] : List String)))).length
        ≤ ((mkeys st.parents).dedup).length := List.length_filter_le _ _
    have h2 : ((mkeys st.parents).dedup).length ≤ (mkeys st.parents).length :=
      (List.dedup_sublist _).length_le
    have h3 : (mkeys st.parents).length = st.parents.length := List.length_map _ _
    omega
  have h := detectLoopF_total st.parents st.items hwf hacyc c
    (st.parents.length + 1) p [] (by simp) hbound
  cases hd : detectLoopF st.parents st.items (st.parents.length + 1) p c with
  | none => rw [hd] at h; simp at h
  | some b => exact ⟨b, rfl⟩

/-- Claim C2 (amended): starting from a well-formed acyclic hierarchy, an
`addChild` call always completes; a call whose insertion would close a cycle
fails — with `CycleDetected` when the existence, self-reference and type
checks pass, and with `SelfReference` when parent and child share a name —
and every failing call leaves the state (in particular the edge set) exactly
as it was; a successful call and any `removeChild` call leave the hierarchy
acyclic. -/
theorem addChild_cycle_safe (st : ManagerState) (p c : Item)
    (hwf : WfParents st.parents) (hacyc : Acyclic st.parents) :
    (∃ r, addChildTop st p c = some r)
    ∧ (∀ st2 r, addChildTop st p c = some (st2, r) →
        ((∃ e, r = Except.error e) → st2 = st)
        ∧ (mhas st.items p.name = true → mhas st.items c.name = true →
            p.name ≠ c.name → ¬ (p.type = ItemType.permission ∧ c.type = ItemType.role) →
            InAncestorChain st.parents p.name c.name →
            r = Except.error RbacError.cycleDetected)
        ∧ (mhas st.items p.name = true → mhas st.items c.name = true → p.name = c.name →
            r = Except.error RbacError.selfReference)
        ∧ (r = Except.ok true → Acyclic st2.parents))
    ∧ (∀ q d, Acyclic ((removeChild st q d).1).parents) := by
  have hrc : ∀ q d, Acyclic ((removeChild st q d).1).parents := by
    intro q d
    unfold removeChild
    by_cases hedge : mhas ((mget st.parents d.name).getD []) q.name = true
    · rw [if_pos hedge]
      cases hg : mget st.parents d.name with
      | none =>
        rw [hg] at hedge
        simp [mhas] at hedge
      | some ps =>
        simp only [Option.getD_some, saveItems]
        intro x hx
        apply hacyc x
        refine Relation.TransGen.mono ?_ hx
        intro a b hab
        obtain ⟨ps2, hget2, hhas2⟩ := hab
        by_cases had : a = d.name
        · subst had
          rw [mget_mset_self] at hget2
          have : ps2 = mdel ps q.name := (Option.some.injEq _ _ ▸ hget2).symm
          subst this
          rw [mhas_mdel] at hhas2
          exact ⟨ps, hg, (Bool.and_eq_true_iff.mp hhas2).1⟩
        · rw [mget_mset_ne _ _ _ _ had] at hget2
          exact ⟨ps2, hget2, hhas2⟩
    · rw [if_neg hedge]
      exact hacyc
  have hres : ∃ st2 r, addChildTop st p c = some (st2, r)
      ∧ ((∃ e, r = Except.error e) → st2 = st)
      ∧ (mhas st.items p.name = true → mhas st.items c.name = true →
          p.name ≠ c.name → ¬ (p.type = ItemType.permission ∧ c.type = ItemType.role) →
          InAncestorChain st.parents p.name c.name →
          r = Except.error RbacError.cycleDetected)
      ∧ (mhas st.items p.name = true → mhas st.items c.name = true → p.name = c.name →
          r = Except.error RbacError.selfReference)
      ∧ (r = Except.ok true → Acyclic st2.parents) := by
    by_cases hex : mhas st.items p.name = true ∧ mhas st.items c.name = true
    · by_cases hpc : p.name = c.name
      · refine ⟨st, Except.error RbacError.selfReference, ?_, fun _ => rfl, ?_, ?_, ?_⟩
        · unfold addChildTop addChild
          rw [if_neg (not_not_intro hex), if_pos hpc]
        · intro _ _ hne _ _
          exact absurd hpc hne
        · intro _ _ _
          rfl
        · intro hok
          cases hok
      · by_cases htype : p.type = ItemType.permission ∧ c.type = ItemType.role
        · refine ⟨st, Except.error RbacError.typeViolation, ?_, fun _ => rfl, ?_, ?_, ?_⟩
          · unfold addChildTop addChild
            rw [if_neg (not_not_intro hex), if_neg hpc, if_pos htype]
          · intro _ _ _ hnt _
            exact absurd htype hnt
          · intro _ _ he
            exact absurd he hpc
          · intro hok
            cases hok
        · obtain ⟨b, hdet⟩ := detectLoop_top_some st hwf hacyc p c
          have hiff := detectLoopF_correct st.parents st.items hwf c hex.2
            (st.parents.length + 1) p b hdet
          cases b with
          | true =>
            refine ⟨st, Except.error RbacError.cycleDetected, ?_, fun _ => rfl, ?_, ?_, ?_⟩
            · unfold addChildTop addChild
              rw [if_neg (not_not_intro hex), if_neg hpc, if_neg htype, hdet]
            · intro _ _ _ _ _
              rfl
            · intro _ _ he
              exact absurd he hpc
            · intro hok
              cases hok
          | false =>
            have hnchain : ¬ InAncestorChain st.parents p.name c.name := by
              intro hch
              have : (false : Bool) = true := hiff.mpr hch
              cases this
            by_cases hdup : mhas ((mget st.parents c.name).getD []) p.name = true
            · refine ⟨st, Except.error RbacError.duplicateEdge, ?_, fun _ => rfl, ?_, ?_, ?_⟩
              · unfold addChildTop addChild
                rw [if_neg (not_not_intro hex), if_neg hpc, if_neg htype, hdet]
                dsimp only
                rw [if_pos hdup]
              · intro _ _ _ _ hch
                exact absurd hch hnchain
              · intro _ _ he
                exact absurd he hpc
              · intro hok
                cases hok
            · refine ⟨saveItems { st with parents :=
                  (if mhas st.parents c.name then
                    mset st.parents c.name
                      (mset ((mget st.parents c.name).getD []) p.name
                        ((mget st.items p.name).getD p))
                  else st.parents ++ [(c.name, [(p.name, (mget st.items p.name).getD p)])]) },
                Except.ok true, ?_, ?_, ?_, ?_, ?_⟩
              · unfold addChildTop addChild
                rw [if_neg (not_not_intro hex), if_neg hpc, if_neg htype, hdet]
                dsimp only
                rw [if_neg hdup]
              · rintro ⟨e, he⟩
                cases he
              · intro _ _ _ _ hch
                exact absurd hch hnchain
              · intro _ _ he
                exact absurd he hpc
              · intro _
                intro x hx
                refine acyclic_insert_pair (u := c.name) (v := p.name) hacyc hnchain x ?_
                refine Relation.TransGen.mono ?_ hx
                intro a b hab
                exact (ancStep_addChild st.parents c.name p.name
                  ((mget st.items p.name).getD p) a b).mp hab
    · refine ⟨st, Except.error RbacError.unknownItem, ?_, fun _ => rfl, ?_, ?_, ?_⟩
      · unfold addChildTop addChild
        rw [if_pos hex]
      · intro h1 h2 _ _ _
        exact absurd ⟨h1, h2⟩ hex
      · intro h1 h2 _
        exact absurd ⟨h1, h2⟩ hex
      · intro hok
        cases hok
  obtain ⟨st2, r, heq, h1, h2, h3, h4⟩ := hres
  refine ⟨⟨(st2, r), heq⟩, ?_, hrc⟩
  intro st2b rb hr
  rw [heq] at hr
  have hst : st2 = st2b ∧ r = rb := by
    have := Option.some.injEq (st2, r) (st2b, rb) ▸ hr
    exact ⟨congrArg Prod.fst this, congrArg Prod.snd this⟩
  obtain ⟨hst2, hrr⟩ := hst
  subst hst2
  subst hrr
  exact ⟨h1, h2, h3, h4⟩

/-! Lemmas about `rekeyBucket`. -/

theorem mem_mset {α : Type} (m : List (String × α)) (k : String) (v : α) :
    ∀ e, e ∈ mset m k v → e ∈ m ∨ e = (k, v) := by
  induction m with
  | nil => intro e he; simp [mset] at he; exact Or.inr he
  | cons e0 rest ih =>
    obtain ⟨a, b⟩ := e0
    intro e he
    by_cases h : a = k
    · simp [mset, h] at he
      rcases he with he1 | he2
      · exact Or.inr (by rw [he1])
      · exact Or.inl (List.mem_cons_of_mem _ he2)
    · simp [mset, h] at he
      rcases he with he1 | he2
      · exact Or.inl (by simp [he1])
      · rcases ih e he2 with h1 | h2
        · exact Or.inl (List.mem_cons_of_mem _ h1)
        · exact Or.inr h2

theorem mem_mdel {α : Type} (m : List (String × α)) (k : String) :
    ∀ e, e ∈ mdel m k → e ∈ m := by
  induction m with
  | nil => intro e he; simp [mdel] at he
  | cons e0 rest ih =>
    obtain ⟨a, b⟩ := e0
    intro e he
    by_cases h : a = k
    · simp [mdel, h] at he
      exact List.mem_cons_of_mem _ (ih e he)
    · simp [mdel, h] at he
      rcases he with he1 | he2
      · exact List.mem_cons.mpr (Or.inl (by simp [he1]))
      · exact List.mem_cons_of_mem _ (ih e he2)

theorem rekeyBucket_old {α : Type} (b : List (String × α)) (oldk newk : String)
    (f : α → α) :
    mget (rekeyBucket b oldk newk f) oldk = none := by
  unfold rekeyBucket
  cases hg : mget b oldk with
  | none => exact hg
  | some v => exact mget_mdel_self _ _

theorem rekeyBucket_new {α : Type} (b : List (String × α)) (oldk newk : String)
    (f : α → α) (hne : newk ≠ oldk) (hfresh : mhas b newk = false) :
    mget (rekeyBucket b oldk newk f) newk = (mget b oldk).map f := by
  unfold rekeyBucket
  cases hg : mget b oldk with
  | none => exact mget_none_of_mhas_false _ _ hfresh
  | some v =>
    rw [mget_mdel_ne _ _ _ hne, mget_mset_self]
    rfl

theorem rekeyBucket_other {α : Type} (b : List (String × α)) (oldk newk : String)
    (f : α → α) (k : String) (h1 : k ≠ oldk) (h2 : k ≠ newk) :
    mget (rekeyBucket b oldk newk f) k = mget b k := by
  unfold rekeyBucket
  cases hg : mget b oldk with
  | none => rfl
  | some v => rw [mget_mdel_ne _ _ _ h1, mget_mset_ne _ _ _ _ h2]

theorem rekeyBucket_mem {α : Type} (b : List (String × α)) (oldk newk : String)
    (f : α → α) :
    ∀ e ∈ rekeyBucket b oldk newk f, e ∈ b ∨ ∃ v, mget b oldk = some v ∧ e = (newk, f v) := by
  unfold rekeyBucket
  cases hg : mget b oldk with
  | none => exact fun e he => Or.inl he
  | some v =>
    intro e he
    rcases mem_mset b newk (f v) e (mem_mdel _ _ e he) with h1 | h2
    · exact Or.inl h1
    · exact Or.inr ⟨v, rfl, h2⟩

/-- Claim C5: a rename `updateItem(oldName, item)` with a fresh new name
re-keys the item, the hierarchy entry and parent references, and every
assignment, so that everything resolves under the new name and the old name
resolves to absent everywhere; a rename onto a taken name fails with
`DuplicateItemName`. -/
theorem updateItem_rename_cascade (st : ManagerState) (name : String) (item : Item)
    (hne : item.name ≠ name) :
    (mhas st.items item.name = true →
      updateItem st name item = (st, Except.error RbacError.duplicateItemName))
    ∧ (mhas st.items item.name = false →
       mhas st.parents item.name = false →
       (∀ e ∈ st.parents, mhas e.2 item.name = false) →
       (∀ e ∈ st.assignments, mhas e.2 item.name = false) →
       ((updateItem st name item).2 = Except.ok true
        ∧ mget (updateItem st name item).1.items name = none
        ∧ mget (updateItem st name item).1.items item.name = some item
        ∧ (∀ n, n ≠ name → n ≠ item.name →
            mget (updateItem st name item).1.items n = mget st.items n)
        ∧ mget (updateItem st name item).1.parents name = none
        ∧ (∀ cn, ¬ EdgeM (updateItem st name item).1 cn name)
        ∧ (∀ pn, pn ≠ name → pn ≠ item.name →
            (EdgeM (updateItem st name item).1 item.name pn ↔ EdgeM st name pn))
        ∧ (∀ cn, cn ≠ name → cn ≠ item.name →
            (EdgeM (updateItem st name item).1 cn item.name ↔ EdgeM st cn name))
        ∧ (∀ cn pn, cn ≠ name → cn ≠ item.name → pn ≠ name → pn ≠ item.name →
            (EdgeM (updateItem st name item).1 cn pn ↔ EdgeM st cn pn))
        ∧ (∀ u, mget ((mget (updateItem st name item).1.assignments u).getD []) name = none)
        ∧ (∀ u, mget ((mget (updateItem st name item).1.assignments u).getD []) item.name
            = (mget ((mget st.assignments u).getD []) name).map
                (fun a => { a with itemName := item.name }))
        ∧ (∀ u k, k ≠ name → k ≠ item.name →
            mget ((mget (updateItem st name item).1.assignments u).getD []) k
              = mget ((mget st.assignments u).getD []) k))) := by
  have hne2 : name ≠ item.name := fun h => hne h.symm
  constructor
  · intro hdup
    unfold updateItem
    rw [if_pos hne2, if_pos hdup]
  · intro hfree hp1 hp2 ha1
    have hit : (updateItem st name item).1.items = mset (mdel st.items name) item.name item := by
      unfold updateItem
      rw [if_pos hne2, if_neg (by simp [hfree])]
      simp [saveItems, saveAssignments]
    have hpar : (updateItem st name item).1.parents
        = (rekeyBucket st.parents name item.name id).map
            (fun e => (e.1, rekeyBucket e.2 name item.name id)) := by
      unfold updateItem
      rw [if_pos hne2, if_neg (by simp [hfree])]
      simp [saveItems, saveAssignments]
    have hasg : (updateItem st name item).1.assignments
        = st.assignments.map
            (fun e => (e.1, rekeyBucket e.2 name item.name
              (fun a => { a with itemName := item.name }))) := by
      unfold updateItem
      rw [if_pos hne2, if_neg (by simp [hfree])]
      simp [saveItems, saveAssignments]
    have hret : (updateItem st name item).2 = Except.ok true := by
      unfold updateItem
      rw [if_pos hne2, if_neg (by simp [hfree])]
    -- the bucket each child name maps to after the cascade
    have hbucket : ∀ cn, mget (updateItem st name item).1.parents cn
        = (mget (rekeyBucket st.parents name item.name id) cn).map
            (fun b => rekeyBucket b name item.name id) := by
      intro cn
      rw [hpar]
      exact mget_keyed_map _ _ _
    have habucket : ∀ u, mget (updateItem st name item).1.assignments u
        = (mget st.assignments u).map
            (fun b => rekeyBucket b name item.name (fun a => { a with itemName := item.name })) := by
      intro u
      rw [hasg]
      exact mget_keyed_map _ _ _
    -- values of the re-keyed outer table are buckets of the original table
    have houtmem : ∀ e ∈ rekeyBucket st.parents name item.name id, mhas e.2 item.name = false := by
      intro e he
      rcases rekeyBucket_mem st.parents name item.name id e he with h1 | ⟨v, hv, he2⟩
      · exact hp2 e h1
      · have : e.2 = v := by rw [he2]; rfl
        rw [this]
        exact hp2 (name, v) (mget_mem _ _ _ hv)
    refine ⟨hret, ?_, ?_, ?_, ?_, ?_, ?_, ?_, ?_, ?_, ?_, ?_⟩
    · rw [hit, mget_mset_ne _ _ _ _ hne2, mget_mdel_self]
    · rw [hit, mget_mset_self]
    · intro n h1 h2
      rw [hit, mget_mset_ne _ _ _ _ h2, mget_mdel_ne _ _ _ h1]
    · rw [hbucket, rekeyBucket_old]
      rfl
    · intro cn
      unfold EdgeM
      rw [hbucket]
      cases hg : mget (rekeyBucket st.parents name item.name id) cn with
      | none => simp [mhas]
      | some b =>
        simp only [Option.map_some', Option.getD_some]
        rw [mhas_eq_isSome, rekeyBucket_old]
        simp
    · intro pn h1 h2
      unfold EdgeM
      rw [hbucket]
      cases hgo : mget st.parents name with
      | none =>
        have hdone : mget (rekeyBucket st.parents name item.name id) item.name = none := by
          rw [rekeyBucket_new _ _ _ _ hne hp1, hgo]
          rfl
        rw [hdone]
        simp [mhas]
      | some b =>
        have hdone : mget (rekeyBucket st.parents name item.name id) item.name = some b := by
          rw [rekeyBucket_new _ _ _ _ hne hp1, hgo]
          rfl
        rw [hdone]
        simp only [Option.map_some', Option.getD_some]
        rw [mhas_eq_isSome, mhas_eq_isSome, rekeyBucket_other _ _ _ _ _ h1 h2]
    · intro cn h1 h2
      unfold EdgeM
      rw [hbucket]
      have houter : mget (rekeyBucket st.parents name item.name id) cn = mget st.parents cn :=
        rekeyBucket_other _ _ _ _ _ h1 h2
      rw [houter]
      cases hg : mget st.parents cn with
      | none => simp [mhas]
      | some b =>
        simp only [Option.map_some', Option.getD_some]
        have hbfresh : mhas b item.name = false := hp2 (cn, b) (mget_mem _ _ _ hg)
        rw [mhas_eq_isSome, rekeyBucket_new _ _ _ _ hne hbfresh, mhas_eq_isSome]
        cases hgn : mget b name <;> rfl
    · intro cn pn h1 h2 h3 h4
      unfold EdgeM
      rw [hbucket]
      rw [rekeyBucket_other _ _ _ _ _ h1 h2]
      cases hg : mget st.parents cn with
      | none => simp [mhas]
      | some b =>
        simp only [Option.map_some', Option.getD_some]
        rw [mhas_eq_isSome, mhas_eq_isSome, rekeyBucket_other _ _ _ _ _ h3 h4]
    · intro u
      rw [habucket]
      cases hg : mget st.assignments u with
      | none => simp [mget]
      | some b =>
        simp only [Option.map_some', Option.getD_some]
        exact rekeyBucket_old _ _ _ _
    · intro u
      rw [habucket]
      cases hg : mget st.assignments u with
      | none => simp [mget]
      | some b =>
        simp only [Option.map_some', Option.getD_some]
        have hbfresh : mhas b item.name = false := ha1 (u, b) (mget_mem _ _ _ hg)
        exact rekeyBucket_new _ _ _ _ hne hbfresh
    · intro u k h1 h2
      rw [habucket]
      cases hg : mget st.assignments u with
      | none => simp [mget]
      | some b =>
        simp only [Option.map_some', Option.getD_some]
        exact rekeyBucket_other _ _ _ _ _ h1 h2

/-- Claim C8: `revokeAll` returns false and performs no write (the state,
including every persisted document, is untouched) when the user has no
bucket; with a bucket — even an empty one — it returns true, leaves an
empty-but-present bucket, and rewrites exactly the assignments document. -/
theorem revokeAll_spec (st : ManagerState) (u : String) :
    (mhas st.assignments u = false → revokeAll st u = (st, false))
    ∧ (mhas st.assignments u = true →
        (revokeAll st u).2 = true
        ∧ mget (revokeAll st u).1.assignments u = some []
        ∧ (revokeAll st u).1.docAssignments
            = serializeAssignments { st with assignments := mset st.assignments u [] }
        ∧ (revokeAll st u).1.docItems = st.docItems
        ∧ (revokeAll st u).1.docRules = st.docRules) := by
  constructor
  · intro h
    unfold revokeAll
    rw [if_neg (by simp [h])]
  · intro h
    unfold revokeAll
    rw [if_pos h]
    exact ⟨rfl, mget_mset_self _ _ _, rfl, rfl, rfl⟩

/-- Claim C9: `addChild(p, r)` with a Permission-kind `p` and a Role-kind `r`
that are both recorded in the item table always fails with `TypeViolation`,
whatever the hierarchy contains. -/
theorem addChild_type_violation (st : ManagerState) (p r : Item)
    (hp : mget st.items p.name = some p) (hr : mget st.items r.name = some r)
    (hptype : p.type = ItemType.permission) (hrtype : r.type = ItemType.role) :
    addChildTop st p r = some (st, Except.error RbacError.typeViolation) := by
  have hne : p.name ≠ r.name := by
    intro he
    rw [he, hr] at hp
    have hpr : r = p := by
      injection hp
    rw [← hpr, hrtype] at hptype
    cases hptype
  have hhp : mhas st.items p.name = true := by rw [mhas_eq_isSome, hp]; rfl
  have hhr : mhas st.items r.name = true := by rw [mhas_eq_isSome, hr]; rfl
  unfold addChildTop addChild
  rw [if_neg (not_not_intro ⟨hhp, hhr⟩), if_neg hne, if_pos ⟨hptype, hrtype⟩]

/-- Claim C10: for every state of the child-to-parents table — cyclic or
dangling entries included — and every start name, the `getChildrenRecursive`
recursion terminates at its canonical fuel and appends each child name at
most once, never re-adding a name already in `result`. -/
theorem getChildrenRecursive_terminates (P : ParentsMap) (name : String)
    (res : List String) :
    ∃ ext, dfsAux P (P.length + 1) name res = some (res ++ ext)
      ∧ ext.Nodup ∧ (∀ x ∈ ext, x ∉ res) := by
  obtain ⟨ext, h1, h2, h3, _, _, _⟩ := getChildrenRecursive_spec P name res
  refine ⟨ext, ?_, h2, h3⟩
  rw [getChildrenRecursive_eq, h1]

/-! Key-set lemmas for the map-building folds. -/

theorem mhas_iff_mem_keys {α : Type} (m : List (String × α)) (k : String) :
    mhas m k = true ↔ k ∈ mkeys m := by
  induction m with
  | nil => simp [mhas, mkeys]
  | cons e rest ih =>
    obtain ⟨a, b⟩ := e
    by_cases h : a = k
    · simp [mhas, mkeys, h]
    · simp [mhas, mkeys, h, ih]
      intro hk
      exact absurd hk.symm h

theorem mkeys_mset {α : Type} (m : List (String × α)) (k : String) (v : α) :
    mkeys (mset m k v) = if mhas m k = true then mkeys m else mkeys m ++ [k] := by
  induction m with
  | nil => simp [mset, mhas, mkeys]
  | cons e rest ih =>
    obtain ⟨a, b⟩ := e
    by_cases h : a = k
    · simp [mset, mhas, mkeys, h]
    · simp only [mset, mhas, if_neg h, mkeys, List.map_cons]
      rw [show mkeys (mset rest k v) = List.map Prod.fst (mset rest k v) from rfl] at ih
      rw [ih]
      by_cases h2 : mhas rest k = true
      · simp [h2, mkeys]
      · simp [h2, mkeys]

theorem nodup_mkeys_mset {α : Type} (m : List (String × α)) (k : String) (v : α)
    (h : (mkeys m).Nodup) : (mkeys (mset m k v)).Nodup := by
  rw [mkeys_mset]
  by_cases h2 : mhas m k = true
  · simpa [h2] using h
  · rw [if_neg h2]
    refine List.Nodup.append h (List.nodup_singleton _) ?_
    intro x hx hk
    rw [List.mem_singleton.mp hk] at hx
    exact h2 ((mhas_iff_mem_keys _ _).mpr hx)

theorem mget_of_mem_nodup {α : Type} (m : List (String × α)) (k : String) (v : α)
    (hnd : (mkeys m).Nodup) (h : (k, v) ∈ m) : mget m k = some v := by
  induction m with
  | nil => simp at h
  | cons e rest ih =>
    obtain ⟨a, b⟩ := e
    simp only [mkeys, List.map_cons, List.nodup_cons] at hnd
    rcases List.mem_cons.mp h with h1 | h2
    · have ha : a = k := (congrArg Prod.fst h1).symm
      have hb : b = v := (congrArg Prod.snd h1).symm
      simp [mget, ha, hb]
    · by_cases hak : a = k
      · exfalso
        apply hnd.1
        rw [hak]
        exact List.mem_map.mpr ⟨(k, v), h2, rfl⟩
      · simp [mget, hak]
        exact ih hnd.2 h2

theorem mem_keys_foldl_mset {α : Type} (l : List (String × α)) :
    ∀ acc x, x ∈ mkeys (l.foldl (fun acc e => mset acc e.1 e.2) acc)
      ↔ x ∈ mkeys acc ∨ x ∈ mkeys l := by
  induction l with
  | nil => intro acc x; simp [mkeys]
  | cons e rest ih =>
    intro acc x
    rw [List.foldl_cons, ih]
    rw [show mkeys (mset acc e.1 e.2) = _ from mkeys_mset acc e.1 e.2]
    by_cases h : mhas acc e.1 = true
    · rw [if_pos h]
      simp only [mkeys, List.map_cons, List.mem_cons]
      constructor
      · rintro (h1 | h2)
        · exact Or.inl h1
        · exact Or.inr (Or.inr h2)
      · rintro (h1 | h2 | h3)
        · exact Or.inl h1
        · exact Or.inl (h2 ▸ (mhas_iff_mem_keys _ _).mp h)
        · exact Or.inr h3
    · rw [if_neg h]
      simp only [mkeys, List.map_cons, List.mem_cons, List.mem_append, List.mem_singleton]
      tauto

theorem nodup_keys_foldl_mset {α : Type} (l : List (String × α)) :
    ∀ acc, (mkeys acc).Nodup →
      (mkeys (l.foldl (fun acc e => mset acc e.1 e.2) acc)).Nodup := by
  induction l with
  | nil => intro acc h; simpa using h
  | cons e rest ih =>
    intro acc h
    rw [List.foldl_cons]
    exact ih _ (nodup_mkeys_mset _ _ _ h)

theorem mem_keys_mset {α : Type} (m : List (String × α)) (k : String) (v : α)
    (x : String) : x ∈ mkeys (mset m k v) ↔ x ∈ mkeys m ∨ x = k := by
  rw [mkeys_mset]
  by_cases hh : mhas m k = true
  · rw [if_pos hh]
    constructor
    · exact Or.inl
    · rintro (h1 | h2)
      · exact h1
      · exact h2 ▸ (mhas_iff_mem_keys _ _).mp hh
  · rw [if_neg hh]
    simp

/-- Keys of `getDirectPermissionsByUser`: the assignment keys resolving (via
the stored `itemName`) to a Permission-kind item. -/
theorem mem_keys_getDirect (st : ManagerState) (u : String) (x : String) :
    x ∈ mkeys (getDirectPermissionsByUser st u)
      ↔ ∃ e ∈ getAssignments st u, e.1 = x ∧
          ∃ it, mget st.items e.2.itemName = some it ∧ it.type = ItemType.permission := by
  unfold getDirectPermissionsByUser
  suffices h : ∀ (b : List (String × Assignment)) (acc : List (String × Item)),
      x ∈ mkeys (b.foldl (fun acc e =>
        match mget st.items e.2.itemName with
        | some it => if it.type = ItemType.permission then mset acc e.1 it else acc
        | none => acc) acc)
      ↔ x ∈ mkeys acc ∨ ∃ e ∈ b, e.1 = x ∧
          ∃ it, mget st.items e.2.itemName = some it ∧ it.type = ItemType.permission by
    rw [h]
    simp [mkeys]
  intro b
  induction b with
  | nil => intro acc; simp
  | cons e rest ih =>
    intro acc
    rw [List.foldl_cons]
    cases hg : mget st.items e.2.itemName with
    | none =>
      rw [ih]
      constructor
      · rintro (h1 | ⟨e2, he2, hx, hit⟩)
        · exact Or.inl h1
        · exact Or.inr ⟨e2, List.mem_cons_of_mem _ he2, hx, hit⟩
      · rintro (h1 | ⟨e2, he2, hx, it, hit, htp⟩)
        · exact Or.inl h1
        · rcases List.mem_cons.mp he2 with he | hm
          · rw [he, hg] at hit
            cases hit
          · exact Or.inr ⟨e2, hm, hx, it, hit, htp⟩
    | some it0 =>
      dsimp only
      by_cases ht : it0.type = ItemType.permission
      · rw [if_pos ht, ih]
        constructor
        · rintro (h1 | ⟨e2, he2, hx, hit⟩)
          · rcases (mem_keys_mset _ _ _ _).mp h1 with h2 | h3
            · exact Or.inl h2
            · exact Or.inr ⟨e, List.mem_cons_self _ _, h3.symm, it0, hg, ht⟩
          · exact Or.inr ⟨e2, List.mem_cons_of_mem _ he2, hx, hit⟩
        · rintro (h1 | ⟨e2, he2, hx, it, hit, htp⟩)
          · exact Or.inl ((mem_keys_mset _ _ _ _).mpr (Or.inl h1))
          · rcases List.mem_cons.mp he2 with he | hm
            · subst he
              exact Or.inl ((mem_keys_mset _ _ _ _).mpr (Or.inr hx.symm))
            · exact Or.inr ⟨e2, hm, hx, it, hit, htp⟩
      · rw [if_neg ht, ih]
        constructor
        · rintro (h1 | ⟨e2, he2, hx, hit⟩)
          · exact Or.inl h1
          · exact Or.inr ⟨e2, List.mem_cons_of_mem _ he2, hx, hit⟩
        · rintro (h1 | ⟨e2, he2, hx, it, hit, htp⟩)
          · exact Or.inl h1
          · rcases List.mem_cons.mp he2 with he | hm
            · subst he
              rw [hg] at hit
              have : it = it0 := by injection hit with hinj; exact hinj.symm
              rw [this] at htp
              exact absurd htp ht
            · exact Or.inr ⟨e2, hm, hx, it, hit, htp⟩

/-- Keys of `getInheritedPermissionsByUser`: the collected descendant names
resolving to Permission-kind items. -/
theorem mem_keys_getInherited (st : ManagerState) (u : String) (x : String) :
    x ∈ mkeys (getInheritedPermissionsByUser st u)
      ↔ x ∈ inheritedNames st u ∧ IsPermName st x := by
  unfold getInheritedPermissionsByUser
  suffices h : ∀ (l : List String) (acc : List (String × Item)),
      x ∈ mkeys (l.foldl (fun acc n =>
        match mget st.items n with
        | some it => if it.type = ItemType.permission then mset acc n it else acc
        | none => acc) acc)
      ↔ x ∈ mkeys acc ∨ (x ∈ l ∧ IsPermName st x) by
    rw [h]
    simp [mkeys]
  intro l
  induction l with
  | nil => intro acc; simp
  | cons n rest ih =>
    intro acc
    rw [List.foldl_cons]
    cases hg : mget st.items n with
    | none =>
      rw [ih]
      constructor
      · rintro (h1 | ⟨h2, h3⟩)
        · exact Or.inl h1
        · exact Or.inr ⟨List.mem_cons_of_mem _ h2, h3⟩
      · rintro (h1 | ⟨h2, h3⟩)
        · exact Or.inl h1
        · rcases List.mem_cons.mp h2 with he | hm
          · obtain ⟨it, hit, _⟩ := h3
            rw [he, hg] at hit
            cases hit
          · exact Or.inr ⟨hm, h3⟩
    | some it0 =>
      dsimp only
      by_cases ht : it0.type = ItemType.permission
      · rw [if_pos ht, ih]
        constructor
        · rintro (h1 | ⟨h2, h3⟩)
          · rcases (mem_keys_mset _ _ _ _).mp h1 with h2 | h3
            · exact Or.inl h2
            · exact Or.inr ⟨h3 ▸ List.mem_cons_self _ _, h3 ▸ ⟨it0, hg, ht⟩⟩
          · exact Or.inr ⟨List.mem_cons_of_mem _ h2, h3⟩
        · rintro (h1 | ⟨h2, h3⟩)
          · exact Or.inl ((mem_keys_mset _ _ _ _).mpr (Or.inl h1))
          · rcases List.mem_cons.mp h2 with he | hm
            · exact Or.inl ((mem_keys_mset _ _ _ _).mpr (Or.inr he))
            · exact Or.inr ⟨hm, h3⟩
      · rw [if_neg ht, ih]
        constructor
        · rintro (h1 | ⟨h2, h3⟩)
          · exact Or.inl h1
          · exact Or.inr ⟨List.mem_cons_of_mem _ h2, h3⟩
        · rintro (h1 | ⟨h2, h3⟩)
          · exact Or.inl h1
          · rcases List.mem_cons.mp h2 with he | hm
            · obtain ⟨it, hit, htp⟩ := h3
              rw [he, hg] at hit
              have : it = it0 := by injection hit with hinj; exact hinj.symm
              rw [this] at htp
              exact absurd htp ht
            · exact Or.inr ⟨hm, h3⟩

/-- The shared accumulator of `getInheritedPermissionsByUser` collects exactly
the names reachable from some assigned item. -/
theorem mem_inheritedNames (st : ManagerState) (u : String) (x : String) :
    x ∈ inheritedNames st u
      ↔ ∃ r ∈ mkeys (getAssignments st u), Reaches st.parents r x := by
  unfold inheritedNames
  have hmap : (getAssignments st u).foldl
        (fun res e => getChildrenRecursive st.parents e.1 res) []
      = (mkeys (getAssignments st u)).foldl
        (fun res r => getChildrenRecursive st.parents r res) [] :=
    (List.foldl_map Prod.fst
      (fun res r => getChildrenRecursive st.parents r res) (getAssignments st u) []).symm
  rw [hmap]
  have hnil : ChildClosed st.parents [] := fun a ha => absurd ha (List.not_mem_nil a)
  obtain ⟨_, hback, hroots⟩ := gcr_fold st.parents (mkeys (getAssignments st u)) [] hnil
  constructor
  · intro hx
    rcases hback x hx with h1 | h2
    · simp at h1
    · exact h2
  · rintro ⟨r, hr, hreach⟩
    exact hroots r hr x hreach

/-- Keys of `getItems`: the item keys of the requested kind. -/
theorem mem_keys_getItems (st : ManagerState) (t : ItemType) (x : String) :
    x ∈ mkeys (getItems st t)
      ↔ ∃ e ∈ st.items, e.2.type = t ∧ e.1 = x := by
  unfold getItems
  suffices h : ∀ (l : ItemsMap) (acc : List (String × Item)),
      x ∈ mkeys (l.foldl (fun acc e => if e.2.type = t then mset acc e.1 e.2 else acc) acc)
      ↔ x ∈ mkeys acc ∨ ∃ e ∈ l, e.2.type = t ∧ e.1 = x by
    rw [h]
    simp [mkeys]
  intro l
  induction l with
  | nil => intro acc; simp
  | cons e rest ih =>
    intro acc
    rw [List.foldl_cons]
    by_cases ht : e.2.type = t
    · rw [if_pos ht, ih]
      constructor
      · rintro (h1 | ⟨e2, he2, h2, h3⟩)
        · rcases (mem_keys_mset _ _ _ _).mp h1 with h2 | h3
          · exact Or.inl h2
          · exact Or.inr ⟨e, List.mem_cons_self _ _, ht, h3.symm⟩
        · exact Or.inr ⟨e2, List.mem_cons_of_mem _ he2, h2, h3⟩
      · rintro (h1 | ⟨e2, he2, h2, h3⟩)
        · exact Or.inl ((mem_keys_mset _ _ _ _).mpr (Or.inl h1))
        · rcases List.mem_cons.mp he2 with he | hm
          · subst he
            exact Or.inl ((mem_keys_mset _ _ _ _).mpr (Or.inr h3.symm))
          · exact Or.inr ⟨e2, hm, h2, h3⟩
    · rw [if_neg ht, ih]
      constructor
      · rintro (h1 | ⟨e2, he2, h2, h3⟩)
        · exact Or.inl h1
        · exact Or.inr ⟨e2, List.mem_cons_of_mem _ he2, h2, h3⟩
      · rintro (h1 | ⟨e2, he2, h2, h3⟩)
        · exact Or.inl h1
        · rcases List.mem_cons.mp he2 with he | hm
          · subst he
            exact absurd h2 ht
          · exact Or.inr ⟨e2, hm, h2, h3⟩

/-- Claim C6: `getPermissionsByUser(u)` is the union, keyed by item name with
overlaps collapsing, of the Permission-kind items directly assigned to `u`
and the Permission-kind items transitively reachable from every item assigned
to `u` — no duplicates, no omissions.  The hypotheses state the well-formed
assignment shape maintained by the mutations: every bucket entry is keyed by
its `itemName` and no assignment dangles (the source dereferences the direct
lookup with a non-null assertion). -/
theorem getPermissionsByUser_union (st : ManagerState) (u : String)
    (hA : ∀ e ∈ st.assignments, ∀ ae ∈ e.2, (ae.2 : Assignment).itemName = ae.1)
    (_hD : ∀ e ∈ st.assignments, ∀ ae ∈ e.2,
      mhas st.items (ae.2 : Assignment).itemName = true) :
    (mkeys (getPermissionsByUser st u)).Nodup
    ∧ ∀ x, x ∈ mkeys (getPermissionsByUser st u)
        ↔ (IsPermName st x ∧
            (x ∈ mkeys (getAssignments st u)
             ∨ ∃ r ∈ mkeys (getAssignments st u), Reaches st.parents r x)) := by
  have hAb : ∀ ae ∈ getAssignments st u, (ae.2 : Assignment).itemName = ae.1 := by
    intro ae hae
    unfold getAssignments at hae
    cases hg : mget st.assignments u with
    | none => rw [hg] at hae; simp at hae
    | some b =>
      rw [hg] at hae
      exact hA (u, b) (mget_mem _ _ _ hg) ae hae
  constructor
  · exact nodup_keys_foldl_mset _ [] (by simp [mkeys])
  · intro x
    unfold getPermissionsByUser
    rw [mem_keys_foldl_mset]
    simp only [show mkeys ([] : List (String × Item)) = [] from rfl, List.not_mem_nil,
      false_or]
    have hsplit : x ∈ mkeys (getDirectPermissionsByUser st u ++ getInheritedPermissionsByUser st u)
        ↔ x ∈ mkeys (getDirectPermissionsByUser st u)
          ∨ x ∈ mkeys (getInheritedPermissionsByUser st u) := by
      simp [mkeys]
    rw [hsplit, mem_keys_getDirect, mem_keys_getInherited, mem_inheritedNames]
    have hdirect : (∃ e ∈ getAssignments st u, e.1 = x ∧
          ∃ it, mget st.items e.2.itemName = some it ∧ it.type = ItemType.permission)
        ↔ (x ∈ mkeys (getAssignments st u) ∧ IsPermName st x) := by
      constructor
      · rintro ⟨e, he, hx, it, hit, htp⟩
        rw [hAb e he, hx] at hit
        exact ⟨hx ▸ List.mem_map.mpr ⟨e, he, rfl⟩, it, hit, htp⟩
      · rintro ⟨hx, it, hit, htp⟩
        obtain ⟨e, he, hx2⟩ := List.mem_map.mp hx
        refine ⟨e, he, hx2, it, ?_, htp⟩
        rw [hAb e he, hx2]
        exact hit
    rw [hdirect]
    constructor
    · rintro (⟨h1, h2⟩ | ⟨h1, h2⟩)
      · exact ⟨h2, Or.inl h1⟩
      · exact ⟨h2, Or.inr h1⟩
    · rintro ⟨h1, h2 | h2⟩
      · exact Or.inl ⟨h2, h1⟩
      · exact Or.inr ⟨h2, h1⟩

/-- Claim C7: `getChildRoles(r)` fails with `RoleNotFound` exactly when `r`
does not resolve to a role, and otherwise returns the role itself together
with every Role-kind item of its descendant set, keyed by name. -/
theorem getChildRoles_spec (st : ManagerState) (rn : String)
    (hnd : (mkeys st.items).Nodup) :
    (getRole st rn = none → getChildRoles st rn = Except.error RbacError.roleNotFound)
    ∧ (∀ it, getRole st rn = some it →
        ∃ m, getChildRoles st rn = Except.ok m
          ∧ ∀ x, x ∈ mkeys m ↔ (x = rn ∨ (IsRoleName st x ∧ Reaches st.parents rn x))) := by
  constructor
  · intro hg
    unfold getChildRoles
    rw [hg]
  · intro it hg
    unfold getChildRoles
    rw [hg]
    refine ⟨_, rfl, ?_⟩
    intro x
    suffices h : ∀ (l : List (String × Item)) (acc : List (String × Item)),
        x ∈ mkeys (l.foldl (fun acc e =>
          if e.1 ∈ getChildrenRecursive st.parents rn [] then mset acc e.1 e.2 else acc) acc)
        ↔ x ∈ mkeys acc
          ∨ ∃ e ∈ l, e.1 ∈ getChildrenRecursive st.parents rn [] ∧ e.1 = x by
      rw [h]
      have hroles : (∃ e ∈ getRoles st, e.1 ∈ getChildrenRecursive st.parents rn [] ∧ e.1 = x)
          ↔ (IsRoleName st x ∧ Reaches st.parents rn x) := by
        constructor
        · rintro ⟨e, he, hin, hx⟩
          rcases (mem_keys_getItems st ItemType.role e.1).mp
            (List.mem_map.mpr ⟨e, he, rfl⟩) with ⟨e2, he2, ht2, hk2⟩
          refine ⟨⟨e2.2, ?_, ht2⟩, ?_⟩
          · rw [← hx, ← hk2]
            exact mget_of_mem_nodup _ _ _ hnd (by rw [← Prod.mk.eta (p := e2)] at he2; exact he2)
          · rw [← hx]
            exact (getChildrenRecursive_nil_mem _ _ _).mp hin
        · rintro ⟨⟨v, hv, htv⟩, hreach⟩
          have hmem : (x, v) ∈ st.items := mget_mem _ _ _ hv
          have hkeys : x ∈ mkeys (getItems st ItemType.role) :=
            (mem_keys_getItems st ItemType.role x).mpr ⟨(x, v), hmem, htv, rfl⟩
          obtain ⟨e, he, hx⟩ := List.mem_map.mp hkeys
          exact ⟨e, he, by rw [hx]; exact (getChildrenRecursive_nil_mem _ _ _).mpr hreach, hx⟩
      rw [hroles]
      simp [mkeys]
    intro l
    induction l with
    | nil => intro acc; simp
    | cons e rest ih =>
      intro acc
      rw [List.foldl_cons]
      by_cases hin : e.1 ∈ getChildrenRecursive st.parents rn []
      · rw [if_pos hin, ih]
        constructor
        · rintro (h1 | ⟨e2, he2, h2, h3⟩)
          · rcases (mem_keys_mset _ _ _ _).mp h1 with h2 | h3
            · exact Or.inl h2
            · exact Or.inr ⟨e, List.mem_cons_self _ _, hin, h3.symm⟩
          · exact Or.inr ⟨e2, List.mem_cons_of_mem _ he2, h2, h3⟩
        · rintro (h1 | ⟨e2, he2, h2, h3⟩)
          · exact Or.inl ((mem_keys_mset _ _ _ _).mpr (Or.inl h1))
          · rcases List.mem_cons.mp he2 with he | hm
            · subst he
              exact Or.inl ((mem_keys_mset _ _ _ _).mpr (Or.inr h3.symm))
            · exact Or.inr ⟨e2, hm, h2, h3⟩
      · rw [if_neg hin, ih]
        constructor
        · rintro (h1 | ⟨e2, he2, h2, h3⟩)
          · exact Or.inl h1
          · exact Or.inr ⟨e2, List.mem_cons_of_mem _ he2, h2, h3⟩
        · rintro (h1 | ⟨e2, he2, h2, h3⟩)
          · exact Or.inl h1
          · rcases List.mem_cons.mp he2 with he | hm
            · subst he
              exact absurd h2 hin
            · exact Or.inr ⟨e2, hm, h2, h3⟩

/-- A hierarchy in which no recorded parent name is itself a child key has
no directed cycle (enough to certify the concrete witness states). -/
theorem acyclic_of_no_parent_keys (P : ParentsMap)
    (h : ∀ e ∈ P, ∀ pe ∈ e.2, mhas P pe.1 = false) : Acyclic P := by
  intro x hx
  rcases (Relation.TransGen.head'_iff).mp hx with ⟨y, hstep, hrest⟩
  obtain ⟨ps, hget, hhas⟩ := hstep
  obtain ⟨v, hv⟩ := (mhas_true_iff _ _).mp hhas
  have hyv : (y, v) ∈ ps := mget_mem _ _ _ hv
  have hynot : mhas P y = false := h (x, ps) (mget_mem _ _ _ hget) (y, v) hyv
  rcases Relation.ReflTransGen.cases_head hrest with heq | ⟨z, hstep2, _⟩
  · rw [heq, mhas_eq_isSome, hget] at hynot
    cases hynot
  · obtain ⟨ps2, hget2, _⟩ := hstep2
    rw [mhas_eq_isSome, hget2] at hynot
    cases hynot

/-- Claim C1 (failing input): `removeItem` does delete the item and its
assignments and strips it from every parent set, but the removed item's own
child entry in the hierarchy table survives, so `getChildren("P")` still
lists `"X"` (now resolving to an absent item) and `getChildrenRecursive`
still returns it. -/
theorem removeItem_leaves_stale_child_entry :
    (removeItem stDeleteCascade itemPermX).2 = true
    ∧ mget (removeItem stDeleteCascade itemPermX).1.items "X" = none
    ∧ mhas ((mget (removeItem stDeleteCascade itemPermX).1.assignments "u").getD []) "X" = false
    ∧ mkeys (getChildren (removeItem stDeleteCascade itemPermX).1 "P") = ["X"]
    ∧ "X" ∈ getChildrenRecursive (removeItem stDeleteCascade itemPermX).1.parents "P" [] := by
  decide

/-- Claim C4 (failing input): starting from a state whose items document is
in sync, `removeAll` clears the in-memory tables but writes nothing, leaving
the persisted documents stale. -/
theorem removeAll_skips_persistence :
    stRemoveAll.docItems = serializeItems stRemoveAll
    ∧ (removeAll stRemoveAll).items = []
    ∧ (removeAll stRemoveAll).assignments = []
    ∧ (removeAll stRemoveAll).docItems = stRemoveAll.docItems
    ∧ (removeAll stRemoveAll).docItems ≠ serializeItems (removeAll stRemoveAll) := by
  decide

/-- Claim C2 (counterexample to the claim as stated): a self edge — a cycle
by the claim's own definition — is rejected with the self-reference error,
not with `CycleDetected`. -/
theorem addChild_self_edge_wrong_error :
    addChildTop stSelfEdge itemRoleA itemRoleA
        = some (stSelfEdge, Except.error RbacError.selfReference)
    ∧ (Except.error RbacError.selfReference : Except RbacError Bool)
        ≠ Except.error RbacError.cycleDetected := by
  constructor
  · decide
  · decide

/-- Witness for `addChild_cycle_safe` at a concrete cycle-closing call. -/
theorem addChild_cycle_safe_witness :
    addChildTop stCycleWitness itemRoleB itemRoleA
        = some (stCycleWitness, Except.error RbacError.cycleDetected)
    ∧ Acyclic ((removeChild stCycleWitness itemRoleB itemRoleA).1).parents := by
  have hacyc : Acyclic stCycleWitness.parents :=
    acyclic_of_no_parent_keys _ (by decide)
  have h := addChild_cycle_safe stCycleWitness itemRoleB itemRoleA (by decide) hacyc
  obtain ⟨⟨⟨st2, r⟩, heq⟩, hall, hrc⟩ := h
  obtain ⟨herr, hcyc, _, _⟩ := hall st2 r heq
  have hchain : InAncestorChain stCycleWitness.parents itemRoleB.name itemRoleA.name :=
    Relation.ReflTransGen.single ⟨[("A", itemRoleA)], by decide, by decide⟩
  have hr : r = Except.error RbacError.cycleDetected :=
    hcyc (by decide) (by decide) (by decide) (by decide) hchain
  have hst : st2 = stCycleWitness := herr ⟨_, hr⟩
  rw [hst, hr] at heq
  exact ⟨heq, hrc itemRoleB itemRoleA⟩

/-- Witness for `addChild_type_violation`. -/
theorem addChild_type_violation_witness :
    addChildTop stTypeDir itemPermX itemRoleA
        = some (stTypeDir, Except.error RbacError.typeViolation) :=
  addChild_type_violation stTypeDir itemPermX itemRoleA (by decide) (by decide)
    (by decide) (by decide)

/-- Witness for `revokeAll_spec` on both branches. -/
theorem revokeAll_spec_witness :
    revokeAll stRevoke "alice" = (stRevoke, false)
    ∧ (revokeAll stRevoke "bob").2 = true
    ∧ mget (revokeAll stRevoke "bob").1.assignments "bob" = some [] := by
  have h1 := (revokeAll_spec stRevoke "alice").1 (by decide)
  have h2 := (revokeAll_spec stRevoke "bob").2 (by decide)
  exact ⟨h1, h2.1, h2.2.1⟩

/-- Witness for `updateItem_rename_cascade`: the collision branch and the
cascading rename branch at concrete inputs. -/
theorem updateItem_rename_cascade_witness :
    updateItem stRename "old" itemClash = (stRename, Except.error RbacError.duplicateItemName)
    ∧ (updateItem stRename "old" itemNew).2 = Except.ok true
    ∧ mget (updateItem stRename "old" itemNew).1.items "old" = none
    ∧ mget (updateItem stRename "old" itemNew).1.items "new" = some itemNew
    ∧ (EdgeM (updateItem stRename "old" itemNew).1 "c1" "new" ↔ EdgeM stRename "c1" "old")
    ∧ mget ((mget (updateItem stRename "old" itemNew).1.assignments "alice").getD []) "new"
        = (mget ((mget stRename.assignments "alice").getD []) "old").map
            (fun a => { a with itemName := "new" }) := by
  have hdup := (updateItem_rename_cascade stRename "old" itemClash (by decide)).1 (by decide)
  have h := (updateItem_rename_cascade stRename "old" itemNew (by decide)).2
    (by decide) (by decide) (by decide) (by decide)
  obtain ⟨r1, r2, r3, _, _, _, _, r8, _, _, r11, _⟩ := h
  exact ⟨hdup, r1, r2, r3, r8 "c1" (by decide) (by decide), r11 "alice"⟩

/-- Witness for `getPermissionsByUser_union` on the spec's Scenario A. -/
theorem getPermissionsByUser_union_witness :
    (mkeys (getPermissionsByUser stPermUser "alice")).Nodup
    ∧ ("edit" ∈ mkeys (getPermissionsByUser stPermUser "alice")
        ↔ (IsPermName stPermUser "edit" ∧
            ("edit" ∈ mkeys (getAssignments stPermUser "alice")
             ∨ ∃ r ∈ mkeys (getAssignments stPermUser "alice"),
                 Reaches stPermUser.parents r "edit"))) := by
  have h := getPermissionsByUser_union stPermUser "alice" (by decide) (by decide)
  exact ⟨h.1, h.2 "edit"⟩

/-- Witness for `getChildRoles_spec`: an unknown role fails, and the roles
below `"A"` are characterized. -/
theorem getChildRoles_spec_witness :
    getChildRoles stCycleWitness "X" = Except.error RbacError.roleNotFound
    ∧ (∃ m, getChildRoles stCycleWitness "A" = Except.ok m
        ∧ ("B" ∈ mkeys m
            ↔ ("B" = "A" ∨ (IsRoleName stCycleWitness "B"
                ∧ Reaches stCycleWitness.parents "A" "B")))) := by
  have h1 := (getChildRoles_spec stCycleWitness "X" (by decide)).1 (by decide)
  have h2 := (getChildRoles_spec stCycleWitness "A" (by decide)).2 itemRoleA (by decide)
  obtain ⟨m, heq, hmem⟩ := h2
  exact ⟨h1, m, heq, hmem "B"⟩

/-! Round-trip lemmas for the persistence codec. -/

theorem mset_append_fresh {α : Type} (m : List (String × α)) (k : String) (v : α)
    (h : mhas m k = false) : mset m k v = m ++ [(k, v)] := by
  induction m with
  | nil => simp [mset]
  | cons e rest ih =>
    obtain ⟨a, b⟩ := e
    by_cases hak : a = k
    · rw [hak] at h
      simp [mhas] at h
    · simp only [mhas, if_neg hak] at h
      simp [mset, hak, ih h]

theorem mset_eq_self {α : Type} (m : List (String × α)) (k : String) (v : α)
    (hk : mhas m k = true) (hv : ∀ v2, (k, v2) ∈ m → v2 = v) : mset m k v = m := by
  induction m with
  | nil => simp [mhas] at hk
  | cons e rest ih =>
    obtain ⟨a, b⟩ := e
    by_cases hak : a = k
    · subst hak
      have hb : b = v := hv b (List.mem_cons_self _ _)
      simp [mset, hb]
    · simp only [mhas, if_neg hak] at hk
      have hrest : ∀ v2, (k, v2) ∈ rest → v2 = v := fun v2 h2 =>
        hv v2 (List.mem_cons_of_mem _ h2)
      simp [mset, hak, ih hk hrest]

/-- Rebuilding a duplicate-free map entry by entry is a `map`. -/
theorem foldl_mset_eq_map {α β : Type} (l : List (String × α)) (f : String × α → β) :
    ∀ acc, (∀ k ∈ mkeys l, mhas acc k = false) → (mkeys l).Nodup →
      l.foldl (fun acc e => mset acc e.1 (f e)) acc = acc ++ l.map (fun e => (e.1, f e)) := by
  induction l with
  | nil => intro acc _ _; simp
  | cons e rest ih =>
    intro acc hfresh hnd
    obtain ⟨a, b⟩ := e
    simp only [mkeys, List.map_cons, List.nodup_cons] at hnd
    rw [List.foldl_cons]
    have hfa : mhas acc a = false := hfresh a (by
      simp only [mkeys, List.map_cons]
      exact List.mem_cons_self _ _)
    rw [mset_append_fresh acc a (f (a, b)) hfa]
    have hfresh2 : ∀ k ∈ mkeys rest, mhas (acc ++ [(a, f (a, b))]) k = false := by
      intro k hk
      rw [mhas_append]
      have h1 : mhas acc k = false := hfresh k (by
        simp only [mkeys, List.map_cons]
        exact List.mem_cons_of_mem _ hk)
      have h2 : mhas [(a, f (a, b))] k = false := by
        have hak : ¬ a = k := fun hak => hnd.1 (hak ▸ hk)
        simp [mhas, hak]
      simp [h1, h2]
    rw [ih (acc ++ [(a, f (a, b))]) hfresh2 hnd.2]
    simp

theorem mkeys_map_keyed {α β : Type} (l : List (String × α)) (f : String × α → β) :
    mkeys (l.map (fun e => (e.1, f e))) = mkeys l := by
  induction l with
  | nil => rfl
  | cons e rest ih =>
    simp only [mkeys, List.map_cons] at ih ⊢
    rw [ih]

/-- `serializeItems` writes one entry per item, in order. -/
theorem serializeItems_eq_map (st : ManagerState) (hnd : (mkeys st.items).Nodup) :
    serializeItems st = st.items.map (fun e =>
      (e.1, (⟨e.2.type, e.2.name, e.2.description, e.2.ruleName,
        mkeys (getChildren st e.1)⟩ : SavedItem))) := by
  unfold serializeItems
  have := foldl_mset_eq_map st.items
    (fun e => (⟨e.2.type, e.2.name, e.2.description, e.2.ruleName,
      mkeys (getChildren st e.1)⟩ : SavedItem)) [] (by intro k _; rfl) hnd
  simpa using this

/-- `serializeAssignments` writes one entry per user, in order. -/
theorem serializeAssignments_eq_map (st : ManagerState)
    (hnd : (mkeys st.assignments).Nodup) :
    serializeAssignments st = st.assignments.map (fun e =>
      (e.1, e.2.map (fun ae => ae.2.itemName))) := by
  unfold serializeAssignments
  have := foldl_mset_eq_map st.assignments
    (fun e => e.2.map (fun ae => ae.2.itemName)) [] (by intro k _; rfl) hnd
  simpa using this

/-- `serializeRules` writes one entry per rule, in order. -/
theorem serializeRules_eq_map (st : ManagerState) (hnd : (mkeys st.rules).Nodup) :
    serializeRules st = st.rules.map (fun e =>
      (e.1, (⟨e.2.name, e.2.typeName, e.2.payload⟩ : SavedRule))) := by
  unfold serializeRules
  have := foldl_mset_eq_map st.rules
    (fun e => (⟨e.2.name, e.2.typeName, e.2.payload⟩ : SavedRule)) [] (by intro k _; rfl) hnd
  simpa using this

/-- `loadItemsPass` rebuilds one item per document entry, in order. -/
theorem loadItemsPass_eq_map (doc : List (String × SavedItem))
    (hnd : (mkeys doc).Nodup) :
    loadItemsPass doc = doc.map (fun e =>
      (e.1, (⟨e.1, (if e.2.type = ItemType.permission then ItemType.permission
        else ItemType.role), e.2.description, e.2.ruleName⟩ : Item))) := by
  unfold loadItemsPass
  have := foldl_mset_eq_map doc
    (fun e => (⟨e.1, (if e.2.type = ItemType.permission then ItemType.permission
      else ItemType.role), e.2.description, e.2.ruleName⟩ : Item)) [] (by intro k _; rfl) hnd
  simpa using this

/-- `loadRulesPass` rebuilds one rule per document entry, in order. -/
theorem loadRulesPass_eq_map (doc : List (String × SavedRule)) (registry : List String)
    (hnd : (mkeys doc).Nodup) :
    loadRulesPass doc registry = doc.map (fun e =>
      (e.1, (⟨e.1, (if e.2.typeName ∈ registry then e.2.typeName else "Rule"),
        e.2.payload⟩ : Rule))) := by
  unfold loadRulesPass
  have := foldl_mset_eq_map doc
    (fun e => (⟨e.1, (if e.2.typeName ∈ registry then e.2.typeName else "Rule"),
      e.2.payload⟩ : Rule)) [] (by intro k _; rfl) hnd
  simpa using this

/-- Keys of `getChildren`: every child listing the parent. -/
theorem mem_keys_getChildren (st : ManagerState) (p : String) (x : String) :
    x ∈ mkeys (getChildren st p) ↔ ∃ e ∈ st.parents, mhas e.2 p = true ∧ e.1 = x := by
  unfold getChildren
  suffices h : ∀ (l : ParentsMap) (acc : List (String × Option Item)),
      x ∈ mkeys (l.foldl (fun acc e =>
        if mhas e.2 p then mset acc e.1 (mget st.items e.1) else acc) acc)
      ↔ x ∈ mkeys acc ∨ ∃ e ∈ l, mhas e.2 p = true ∧ e.1 = x by
    rw [h]
    simp [mkeys]
  intro l
  induction l with
  | nil => intro acc; simp
  | cons e rest ih =>
    intro acc
    rw [List.foldl_cons]
    by_cases hp : mhas e.2 p = true
    · rw [if_pos hp, ih]
      constructor
      · rintro (h1 | ⟨e2, he2, h2, h3⟩)
        · rcases (mem_keys_mset _ _ _ _).mp h1 with h2 | h3
          · exact Or.inl h2
          · exact Or.inr ⟨e, List.mem_cons_self _ _, hp, h3.symm⟩
        · exact Or.inr ⟨e2, List.mem_cons_of_mem _ he2, h2, h3⟩
      · rintro (h1 | ⟨e2, he2, h2, h3⟩)
        · exact Or.inl ((mem_keys_mset _ _ _ _).mpr (Or.inl h1))
        · rcases List.mem_cons.mp he2 with he | hm
          · subst he
            exact Or.inl ((mem_keys_mset _ _ _ _).mpr (Or.inr h3.symm))
          · exact Or.inr ⟨e2, hm, h2, h3⟩
    · rw [if_neg hp, ih]
      constructor
      · rintro (h1 | ⟨e2, he2, h2, h3⟩)
        · exact Or.inl h1
        · exact Or.inr ⟨e2, List.mem_cons_of_mem _ he2, h2, h3⟩
      · rintro (h1 | ⟨e2, he2, h2, h3⟩)
        · exact Or.inl h1
        · rcases List.mem_cons.mp he2 with he | hm
          · subst he
            exact absurd h2 hp
          · exact Or.inr ⟨e2, hm, h2, h3⟩

/-- Edge reading through `Map.get` agrees with the entry-based reading on
duplicate-free tables. -/
theorem edgeIn_iff_mget (P : ParentsMap) (hnd : (mkeys P).Nodup) (c p : String) :
    EdgeIn P c p ↔ mhas ((mget P c).getD []) p = true := by
  constructor
  · rintro ⟨ps, hmem, hps⟩
    rw [mget_of_mem_nodup P c ps hnd hmem]
    exact hps
  · intro h
    cases hg : mget P c with
    | none => rw [hg] at h; simp [mhas] at h
    | some ps =>
      rw [hg] at h
      exact ⟨ps, mget_mem _ _ _ hg, h⟩

/-- One insertion step of the edge-rebuilding pass adds exactly the edge
`(cn, pname)` — provided the child loaded — and keeps the keys duplicate
free. -/
theorem loadEdges_step_spec (items1 : ItemsMap) (pname : String) (acc : ParentsMap)
    (cn : String) (hnd : (mkeys acc).Nodup) :
    (mkeys (if mhas items1 cn then
        match mget items1 pname with
        | some pit =>
          match mget acc cn with
          | some b => mset acc cn (mset b pname pit)
          | none => acc ++ [(cn, [(pname, pit)])]
        | none => acc
      else acc)).Nodup
    ∧ ∀ x y, mhas ((mget (if mhas items1 cn then
        match mget items1 pname with
        | some pit =>
          match mget acc cn with
          | some b => mset acc cn (mset b pname pit)
          | none => acc ++ [(cn, [(pname, pit)])]
        | none => acc
      else acc) x).getD []) y = true
      ↔ (mhas ((mget acc x).getD []) y = true
         ∨ (x = cn ∧ y = pname ∧ mhas items1 cn = true
            ∧ ∃ pit, mget items1 pname = some pit)) := by
  by_cases hcn : mhas items1 cn
  · rw [if_pos hcn]
    cases hp : mget items1 pname with
    | none =>
      refine ⟨hnd, ?_⟩
      intro x y
      constructor
      · exact Or.inl
      · rintro (h1 | ⟨_, _, _, pit, hpit⟩)
        · exact h1
        · cases hpit
    | some pit =>
      cases hb : mget acc cn with
      | some b =>
        constructor
        · have : mkeys (mset acc cn (mset b pname pit))
              = if mhas acc cn = true then mkeys acc else mkeys acc ++ [cn] :=
            mkeys_mset _ _ _
          rw [this, if_pos (by rw [mhas_eq_isSome, hb]; rfl)]
          exact hnd
        · intro x y
          by_cases hx : x = cn
          · subst hx
            rw [mget_mset_self]
            simp only [Option.getD_some]
            rw [mhas_mset, hb]
            simp only [Option.getD_some]
            constructor
            · intro h
              rcases Bool.or_eq_true_iff.mp h with h1 | h2
              · exact Or.inl h1
              · exact Or.inr ⟨trivial, of_decide_eq_true h2, hcn, pit, rfl⟩
            · rintro (h1 | ⟨_, hy, _, _⟩)
              · rw [h1]; simp
              · subst hy; simp
          · rw [mget_mset_ne _ _ _ _ hx]
            constructor
            · exact Or.inl
            · rintro (h1 | ⟨hxc, _, _, _⟩)
              · exact h1
              · exact absurd hxc hx
      | none =>
        have hcnf : mhas acc cn = false := by rw [mhas_eq_isSome, hb]; rfl
        constructor
        · have : mkeys (acc ++ [(cn, [(pname, pit)])]) = mkeys acc ++ [cn] := by
            simp [mkeys]
          rw [this]
          refine List.Nodup.append hnd (List.nodup_singleton _) ?_
          intro a ha hb2
          rw [List.mem_singleton.mp hb2] at ha
          rw [(mhas_iff_mem_keys acc cn).mpr ha] at hcnf
          cases hcnf
        · intro x y
          by_cases hx : x = cn
          · subst hx
            rw [mget_append_right _ _ _ hcnf]
            simp only [mget, if_pos rfl, Option.getD_some]
            rw [hb]
            constructor
            · intro h
              simp only [mhas] at h
              by_cases hy : pname = y
              · exact Or.inr ⟨trivial, hy.symm, hcn, pit, rfl⟩
              · rw [if_neg hy] at h
                simp [mhas] at h
            · rintro (h1 | ⟨_, hy, _, _⟩)
              · simp [mhas] at h1
              · subst hy
                simp [mhas]
          · by_cases hhx : mhas acc x = true
            · rw [mget_append_left _ _ _ hhx]
              constructor
              · exact Or.inl
              · rintro (h1 | ⟨hxc, _, _, _⟩)
                · exact h1
                · exact absurd hxc hx
            · have hhxf : mhas acc x = false := by
                cases hv : mhas acc x with
                | false => rfl
                | true => exact absurd hv hhx
              rw [mget_append_right _ _ _ hhxf]
              have hxn : mget acc x = none := mget_none_of_mhas_false _ _ hhxf
              rw [hxn]
              simp only [mget]
              rw [if_neg (fun h2 => hx h2.symm)]
              constructor
              · intro h
                simp [mhas] at h
              · rintro (h1 | ⟨hxc, _, _, _⟩)
                · simp [mhas] at h1
                · exact absurd hxc hx
  · rw [if_neg hcn]
    refine ⟨hnd, ?_⟩
    intro x y
    constructor
    · exact Or.inl
    · rintro (h1 | ⟨_, _, hcn2, _⟩)
      · exact h1
      · exact absurd hcn2 hcn

/-- Folding the whole `children` list of one document entry adds exactly the
edges from those children to the entry key. -/
theorem loadEdges_children_fold (items1 : ItemsMap) (pname : String) :
    ∀ (children : List String) (acc : ParentsMap), (mkeys acc).Nodup →
    (mkeys (children.foldl
        (fun acc2 childName =>
          if mhas items1 childName then
            match mget items1 pname with
            | some pit =>
              match mget acc2 childName with
              | some b => mset acc2 childName (mset b pname pit)
              | none => acc2 ++ [(childName, [(pname, pit)])]
            | none => acc2
          else acc2) acc)).Nodup
    ∧ ∀ x y, mhas ((mget (children.foldl
        (fun acc2 childName =>
          if mhas items1 childName then
            match mget items1 pname with
            | some pit =>
              match mget acc2 childName with
              | some b => mset acc2 childName (mset b pname pit)
              | none => acc2 ++ [(childName, [(pname, pit)])]
            | none => acc2
          else acc2) acc) x).getD []) y = true
      ↔ (mhas ((mget acc x).getD []) y = true
         ∨ (x ∈ children ∧ y = pname ∧ mhas items1 x = true
            ∧ ∃ pit, mget items1 pname = some pit)) := by
  intro children
  induction children with
  | nil =>
    intro acc hnd
    refine ⟨hnd, fun x y => ?_⟩
    simp
  | cons c cs ih =>
    intro acc hnd
    rw [List.foldl_cons]
    obtain ⟨hnd1, hstep⟩ := loadEdges_step_spec items1 pname acc c hnd
    obtain ⟨hnd2, hrest⟩ := ih _ hnd1
    refine ⟨hnd2, fun x y => ?_⟩
    rw [hrest x y, hstep x y]
    constructor
    · rintro ((h0 | ⟨hx, hy, hc, hpit⟩) | ⟨hx, hy, hhx, hpit⟩)
      · exact Or.inl h0
      · exact Or.inr ⟨by rw [hx]; exact List.mem_cons_self _ _, hy, by rw [hx]; exact hc, hpit⟩
      · exact Or.inr ⟨List.mem_cons_of_mem _ hx, hy, hhx, hpit⟩
    · rintro (h0 | ⟨hx, hy, hhx, hpit⟩)
      · exact Or.inl (Or.inl h0)
      · rcases List.mem_cons.mp hx with hx1 | hx2
        · exact Or.inl (Or.inr ⟨hx1, hy, by rw [hx1] at hhx; exact hhx, hpit⟩)
        · exact Or.inr ⟨hx2, hy, hhx, hpit⟩

/-- The whole edge-rebuilding fold: its edges are exactly the document
child links whose child loaded, and its keys stay duplicate free. -/
theorem loadEdgesPass_fold_spec (items1 : ItemsMap) :
    ∀ (doc : List (String × SavedItem)) (acc : ParentsMap), (mkeys acc).Nodup →
    (mkeys (doc.foldl
        (fun acc e =>
          e.2.children.foldl
            (fun acc2 childName =>
              if mhas items1 childName then
                match mget items1 e.1 with
                | some pit =>
                  match mget acc2 childName with
                  | some b => mset acc2 childName (mset b e.1 pit)
                  | none => acc2 ++ [(childName, [(e.1, pit)])]
                | none => acc2
              else acc2)
            acc) acc)).Nodup
    ∧ ∀ x y, mhas ((mget (doc.foldl
        (fun acc e =>
          e.2.children.foldl
            (fun acc2 childName =>
              if mhas items1 childName then
                match mget items1 e.1 with
                | some pit =>
                  match mget acc2 childName with
                  | some b => mset acc2 childName (mset b e.1 pit)
                  | none => acc2 ++ [(childName, [(e.1, pit)])]
                | none => acc2
              else acc2)
            acc) acc) x).getD []) y = true
      ↔ (mhas ((mget acc x).getD []) y = true
         ∨ ∃ e ∈ doc, x ∈ e.2.children ∧ y = e.1 ∧ mhas items1 x = true
            ∧ ∃ pit, mget items1 e.1 = some pit) := by
  intro doc
  induction doc with
  | nil =>
    intro acc hnd
    refine ⟨hnd, fun x y => ?_⟩
    simp
  | cons e rest ih =>
    intro acc hnd
    obtain ⟨pname, si⟩ := e
    rw [List.foldl_cons]
    obtain ⟨hnd1, hstep⟩ := loadEdges_children_fold items1 pname si.children acc hnd
    obtain ⟨hnd2, hrest⟩ := ih _ hnd1
    refine ⟨hnd2, fun x y => ?_⟩
    rw [hrest x y, hstep x y]
    constructor
    · rintro ((h0 | ⟨hx, hy, hhx, hpit⟩) | ⟨e2, he2, hx, hy, hhx, hpit⟩)
      · exact Or.inl h0
      · exact Or.inr ⟨(pname, si), List.mem_cons_self _ _, hx, hy, hhx, hpit⟩
      · exact Or.inr ⟨e2, List.mem_cons_of_mem _ he2, hx, hy, hhx, hpit⟩
    · rintro (h0 | ⟨e2, he2, hx, hy, hhx, hpit⟩)
      · exact Or.inl (Or.inl h0)
      · rcases List.mem_cons.mp he2 with he1 | he3
        · subst he1
          exact Or.inl (Or.inr ⟨hx, hy, hhx, hpit⟩)
        · exact Or.inr ⟨e2, he3, hx, hy, hhx, hpit⟩

/-- Edge characterization of `loadEdgesPass`: the rebuilt table holds the
edge `child → parent` exactly when some document entry for the parent lists
the child and both endpoints loaded as items. -/
theorem loadEdgesPass_edge (doc : List (String × SavedItem)) (items1 : ItemsMap)
    (x y : String) :
    EdgeIn (loadEdgesPass doc items1) x y
    ↔ ∃ e ∈ doc, x ∈ e.2.children ∧ y = e.1 ∧ mhas items1 x = true
        ∧ ∃ pit, mget items1 e.1 = some pit := by
  obtain ⟨hnd, hiff⟩ := loadEdgesPass_fold_spec items1 doc [] (by simp [mkeys])
  unfold loadEdgesPass
  rw [edgeIn_iff_mget _ hnd x y, hiff x y]
  simp [mget, mhas]

/-- Replaying one user bucket of the assignments document over a table that
already holds that bucket changes nothing. -/
theorem loadAssign_inner_id (A : AssignMap) (u : String)
    (b : List (String × Assignment)) (hnd : (mkeys A).Nodup)
    (hgb : mget A u = some b)
    (hb : ∀ (n : String) (v2 : Assignment), (n, v2) ∈ b → v2 = ⟨u, n⟩) :
    ∀ (names : List String), (∀ n ∈ names, mhas b n = true) →
    names.foldl
      (fun acc2 itemName =>
        match mget acc2 u with
        | some b2 => mset acc2 u (mset b2 itemName ⟨u, itemName⟩)
        | none => acc2 ++ [(u, [(itemName, ⟨u, itemName⟩)])]) A = A := by
  intro names
  induction names with
  | nil => intro _; rfl
  | cons n ns ih =>
    intro hmem
    rw [List.foldl_cons]
    have hstep : (match mget A u with
        | some b2 => mset A u (mset b2 n ⟨u, n⟩)
        | none => A ++ [(u, [(n, ⟨u, n⟩)])]) = A := by
      rw [hgb]
      show mset A u (mset b n ⟨u, n⟩) = A
      have hbn : mset b n ⟨u, n⟩ = b := by
        apply mset_eq_self
        · exact hmem n (List.mem_cons_self _ _)
        · intro v2 hv2
          exact hb n v2 hv2
      rw [hbn]
      apply mset_eq_self
      · rw [mhas_eq_isSome, hgb]
        rfl
      · intro v2 hv2
        have h2 := mget_of_mem_nodup A u v2 hnd hv2
        rw [hgb] at h2
        exact (Option.some.inj h2).symm
    rw [hstep]
    exact ih (fun n2 h2 => hmem n2 (List.mem_cons_of_mem _ h2))

/-- Replaying the serialized assignments document over the assignments table
it came from is the identity: every insertion rewrites an entry with itself. -/
theorem loadAssignmentsPass_id (A : AssignMap)
    (hW4 : ∀ e ∈ A, ∀ ae ∈ e.2, ae.1 = ae.2.itemName ∧ ae.2.username = e.1)
    (hW5 : (mkeys A).Nodup) :
    loadAssignmentsPass (A.map (fun e => (e.1, e.2.map (fun ae => ae.2.itemName)))) A
      = A := by
  unfold loadAssignmentsPass
  suffices H : ∀ (doc : List (String × List String)),
      (∀ e ∈ doc, ∃ b, mget A e.1 = some b ∧ e.2 = b.map (fun ae => ae.2.itemName)) →
      doc.foldl
        (fun acc e =>
          e.2.foldl
            (fun acc2 itemName =>
              match mget acc2 e.1 with
              | some b2 => mset acc2 e.1 (mset b2 itemName ⟨e.1, itemName⟩)
              | none => acc2 ++ [(e.1, [(itemName, ⟨e.1, itemName⟩)])])
            acc)
        A = A by
    apply H
    intro e he
    obtain ⟨a, ha, hfa⟩ := List.mem_map.mp he
    obtain ⟨u0, b0⟩ := a
    refine ⟨b0, ?_, ?_⟩
    · rw [← hfa]
      exact mget_of_mem_nodup A u0 b0 hW5 ha
    · rw [← hfa]
  intro doc
  induction doc with
  | nil => intro _; rfl
  | cons e rest ih =>
    intro hdoc
    obtain ⟨u, names⟩ := e
    obtain ⟨b, hgb0, hnames0⟩ := hdoc (u, names) (List.mem_cons_self _ _)
    have hgb : mget A u = some b := hgb0
    have hnames : names = List.map (fun ae => ae.2.itemName) b := hnames0
    rw [List.foldl_cons]
    dsimp only
    have hb : ∀ (n : String) (v2 : Assignment), (n, v2) ∈ b → v2 = ⟨u, n⟩ := by
      intro n v2 hv2
      have hmemA : ((u : String), b) ∈ A := mget_mem _ _ _ hgb
      obtain ⟨h1, h2⟩ := hW4 (u, b) hmemA (n, v2) hv2
      obtain ⟨vu, vi⟩ := v2
      dsimp only at h1 h2
      rw [h2, ← h1]
    have hmem : ∀ n ∈ names, mhas b n = true := by
      intro n hn
      rw [hnames] at hn
      obtain ⟨ae, hae, haen⟩ := List.mem_map.mp hn
      have hk := (hW4 (u, b) (mget_mem _ _ _ hgb) ae hae).1
      rw [mhas_iff_mem_keys]
      simp only [mkeys]
      exact List.mem_map.mpr ⟨ae, hae, hk.trans haen⟩
    rw [loadAssign_inner_id A u b hW5 hgb hb names hmem]
    exact ih (fun e2 h2 => hdoc e2 (List.mem_cons_of_mem _ h2))

/-- Loading the serialized items document rebuilds the items table exactly,
when every item is named by its key and keys are duplicate free. -/
theorem loadItemsPass_serializeItems (st : ManagerState)
    (hW1 : ∀ e ∈ st.items, e.2.name = e.1) (hW2 : (mkeys st.items).Nodup) :
    loadItemsPass (serializeItems st) = st.items := by
  rw [serializeItems_eq_map st hW2]
  have hnd2 : (mkeys (st.items.map (fun e =>
      (e.1, (⟨e.2.type, e.2.name, e.2.description, e.2.ruleName,
        mkeys (getChildren st e.1)⟩ : SavedItem))))).Nodup := by
    rw [mkeys_map_keyed]
    exact hW2
  rw [loadItemsPass_eq_map _ hnd2, List.map_map]
  have hpt : ∀ a ∈ st.items,
      ((fun e => (e.1, (⟨e.1, (if e.2.type = ItemType.permission then ItemType.permission
          else ItemType.role), e.2.description, e.2.ruleName⟩ : Item))) ∘
        (fun e => (e.1, (⟨e.2.type, e.2.name, e.2.description, e.2.ruleName,
          mkeys (getChildren st e.1)⟩ : SavedItem)))) a = id a := by
    intro a ha
    obtain ⟨k, it⟩ := a
    obtain ⟨n, ty, d, r⟩ := it
    have hn : n = k := hW1 (k, ⟨n, ty, d, r⟩) ha
    subst hn
    cases ty <;> simp [Function.comp]
  rw [List.map_congr_left hpt, List.map_id]

/-- Loading the serialized rules document rebuilds each rule, sending any
type tag missing from the registry to the generic fallback. -/
theorem loadRulesPass_serializeRules (st : ManagerState)
    (hW6 : ∀ e ∈ st.rules, e.2.name = e.1) (hW7 : (mkeys st.rules).Nodup) :
    loadRulesPass (serializeRules st) st.ruleClasses
      = st.rules.map (fun e => (e.1,
          (⟨e.2.name, (if e.2.typeName ∈ st.ruleClasses then e.2.typeName else "Rule"),
            e.2.payload⟩ : Rule))) := by
  rw [serializeRules_eq_map st hW7]
  have hnd2 : (mkeys (st.rules.map (fun e =>
      (e.1, (⟨e.2.name, e.2.typeName, e.2.payload⟩ : SavedRule))))).Nodup := by
    rw [mkeys_map_keyed]
    exact hW7
  rw [loadRulesPass_eq_map _ _ hnd2, List.map_map]
  apply List.map_congr_left
  intro a ha
  obtain ⟨k, r⟩ := a
  obtain ⟨n, tn, pl⟩ := r
  have hn : n = k := hW6 (k, ⟨n, tn, pl⟩) ha
  subst hn
  simp [Function.comp]

/-- Edge set after reloading the serialized items document over the original
items table: exactly the original edge set, given that every edge endpoint
exists as an item. -/
theorem load_edges_round (st : ManagerState)
    (hW2 : (mkeys st.items).Nodup)
    (hW3 : ∀ e ∈ st.parents, mhas st.items e.1 = true
       ∧ ∀ pe ∈ e.2, mhas st.items pe.1 = true)
    (c p : String) :
    EdgeIn (loadEdgesPass (serializeItems st) st.items) c p ↔ EdgeIn st.parents c p := by
  rw [loadEdgesPass_edge]
  constructor
  · rintro ⟨e, he, hc, hy, hhx, pit, hpit⟩
    rw [serializeItems_eq_map st hW2] at he
    obtain ⟨a, ha, hfa⟩ := List.mem_map.mp he
    rw [← hfa] at hc hy
    have hc2 : c ∈ mkeys (getChildren st a.1) := hc
    have hp2 : p = a.1 := hy
    obtain ⟨⟨cn, ps⟩, he2, hhp, he21⟩ := (mem_keys_getChildren st a.1 c).mp hc2
    have hcn : cn = c := he21
    subst hcn
    refine ⟨ps, he2, ?_⟩
    rw [hp2]
    exact hhp
  · rintro ⟨ps, hmem, hps⟩
    have hW3c := hW3 (c, ps) hmem
    obtain ⟨v, hv⟩ := (mhas_true_iff _ _).mp hps
    have hip : mhas st.items p = true := hW3c.2 (p, v) (mget_mem _ _ _ hv)
    obtain ⟨ip, hipg⟩ := (mhas_true_iff _ _).mp hip
    refine ⟨(p, ⟨ip.type, ip.name, ip.description, ip.ruleName,
      mkeys (getChildren st p)⟩), ?_, ?_, rfl, hW3c.1, ip, hipg⟩
    · rw [serializeItems_eq_map st hW2]
      exact List.mem_map.mpr ⟨(p, ip), mget_mem _ _ _ hipg, rfl⟩
    · exact (mem_keys_getChildren st p c).mpr ⟨(c, ps), hmem, hps, rfl⟩

/-- Claim C3: for every valid in-memory state — items named by their keys, edges
between existing items, well-formed assignment buckets, rules named by their
keys, duplicate-free keys throughout — `save()` followed by `load()` rebuilds
the same items table (same names, kinds, descriptions and rule names), the
same edge set, and the same assignments table; each rule reconstructs with
its payload, keeping its class tag when it is registered and falling back to
the generic `"Rule"` class when it is not, with no error raised. -/
theorem save_load_round_trip (st : ManagerState)
    (hW1 : ∀ e ∈ st.items, e.2.name = e.1)
    (hW2 : (mkeys st.items).Nodup)
    (hW3 : ∀ e ∈ st.parents, mhas st.items e.1 = true
       ∧ ∀ pe ∈ e.2, mhas st.items pe.1 = true)
    (hW4 : ∀ e ∈ st.assignments, ∀ ae ∈ e.2, ae.1 = ae.2.itemName ∧ ae.2.username = e.1)
    (hW5 : (mkeys st.assignments).Nodup)
    (hW6 : ∀ e ∈ st.rules, e.2.name = e.1)
    (hW7 : (mkeys st.rules).Nodup) :
    (load (save st)).items = st.items
    ∧ (∀ c p, EdgeIn (load (save st)).parents c p ↔ EdgeIn st.parents c p)
    ∧ (load (save st)).assignments = st.assignments
    ∧ (load (save st)).rules = st.rules.map (fun e => (e.1,
        (⟨e.2.name, (if e.2.typeName ∈ st.ruleClasses then e.2.typeName else "Rule"),
          e.2.payload⟩ : Rule))) := by
  have hitems : (load (save st)).items = st.items := by
    show loadItemsPass (serializeItems st) = st.items
    exact loadItemsPass_serializeItems st hW1 hW2
  refine ⟨hitems, ?_, ?_, ?_⟩
  · intro c p
    have hpar : (load (save st)).parents
        = loadEdgesPass (serializeItems st) (loadItemsPass (serializeItems st)) := rfl
    rw [hpar, loadItemsPass_serializeItems st hW1 hW2]
    exact load_edges_round st hW2 hW3 c p
  · show loadAssignmentsPass (serializeAssignments st) st.assignments = st.assignments
    rw [serializeAssignments_eq_map st hW5]
    exact loadAssignmentsPass_id st.assignments hW4 hW5
  · show loadRulesPass (serializeRules st) st.ruleClasses = _
    exact loadRulesPass_serializeRules st hW6 hW7

/-- The round trip on the populated valid state `stRound`, all hypotheses
checked by evaluation. -/
theorem save_load_round_trip_witness :
    (load (save stRound)).items = stRound.items
    ∧ (∀ c p, EdgeIn (load (save stRound)).parents c p ↔ EdgeIn stRound.parents c p)
    ∧ (load (save stRound)).assignments = stRound.assignments
    ∧ (load (save stRound)).rules = stRound.rules.map (fun e => (e.1,
        (⟨e.2.name, (if e.2.typeName ∈ stRound.ruleClasses then e.2.typeName else "Rule"),
          e.2.payload⟩ : Rule))) :=
  save_load_round_trip stRound (by decide) (by decide) (by decide) (by decide)
    (by decide) (by decide) (by decide)

end RbacJM
